import Mathlib

/-!
# Verification of the `guilib` priority queue (`src/pq.c`) and hash table (`src/ht.c`)

This file is a shallow embedding of the C sources of the repository:

* the binary-heap priority queue of `src/pq.c` (`pq_create`, `pq_insert`,
  `pq_peek`, `pq_remove`, `pq_copy`, `pq_destroy`, `pq_print`, `pq_len`,
  `pq_size`, `pq_is_empty`, and the helpers `_sift_up` / `_sift_down`), and
* the hash-table stub of `src/ht.c` (`ht_create`, `ht_insert`).

The heap array `pq->arr` (of which the first `len` slots are occupied) is
modelled as the list of its occupied slots, so `pq->len` is the list length.
The C `while` loops of `_sift_up` / `_sift_down` are modelled as fuelled
structural recursions; the fuel supplied at every call site is proven
sufficient, so the fuelled function never exhausts its fuel on the paths the
C code can take.  Fatal `abort()` paths (which print a diagnostic and
terminate) are modelled by the `COut.fatal` outcome carrying the diagnostic
text; a dereference of a null pointer that the C code performs *without* a
diagnostic is modelled as `COut.undef`.

Reference counting across queue copies (`_pq_node_t.copies`) is modelled by a
small-step world semantics: a world holds a table of node reference counts
and the collection of live queues, and each API call is a step.
-/

namespace Guilib

/-- Value read from slot `i` of the occupied part of the heap array
(`pq->arr[i]->val` in the C source).  Out-of-range reads (which the C code
never performs on its reachable paths) return the default element. -/
def nth [Inhabited α] (l : List α) (i : Nat) : α := l.getD i default

/-- Exchange of the node handles at slots `i` and `j`, as performed by the
bodies of `_sift_down` and `_sift_up` (`tmp = arr[i]; arr[i] = arr[j];
arr[j] = tmp`). -/
def swapL [Inhabited α] (l : List α) (i j : Nat) : List α :=
  (l.set i (nth l j)).set j (nth l i)

/-- The `while` loop of `pq_remove` (lines 159–166 of `src/pq.c`), with
explicit fuel.  `LEFT(idx) = 2*idx+1`, `RIGHT(idx) = 2*idx+2`.  The loop
runs while some occupied child compares strictly smaller than the current
node; `is_left` is `RIGHT(idx) >= pq->len || compare(arr[LEFT], arr[RIGHT]) < 0`,
and the step swaps the current slot with the selected child (`_sift_down`)
and continues from the child's position. -/
def sift_down_go [Inhabited α] (cmp : α → α → Int) :
    Nat → List α → Nat → List α
  | 0, l, _ => l
  | gas + 1, l, idx =>
    if (2 * idx + 1 < l.length ∧ 0 < cmp (nth l idx) (nth l (2 * idx + 1))) ∨
       (2 * idx + 2 < l.length ∧ 0 < cmp (nth l idx) (nth l (2 * idx + 2))) then
      if l.length ≤ 2 * idx + 2 ∨ cmp (nth l (2 * idx + 1)) (nth l (2 * idx + 2)) < 0 then
        sift_down_go cmp gas (swapL l idx (2 * idx + 1)) (2 * idx + 1)
      else
        sift_down_go cmp gas (swapL l idx (2 * idx + 2)) (2 * idx + 2)
    else l

/-- `pq_remove`'s sift-down loop started at `idx`; fuel `l.length` is enough
because the index strictly increases at every iteration and stays below the
length. -/
def sift_down [Inhabited α] (cmp : α → α → Int) (l : List α) (idx : Nat) : List α :=
  sift_down_go cmp l.length l idx

/-- The `while` loop of `pq_insert` (lines 117–120 of `src/pq.c`), with
explicit fuel.  `v` is `i_node->val`, the value of the freshly inserted node,
which the loop's guard compares against the parent slot `UP(idx) = (idx-1)/2`;
the step swaps the slot with its parent (`_sift_up`) and moves to the parent. -/
def sift_up_go [Inhabited α] (cmp : α → α → Int) (v : α) :
    Nat → List α → Nat → List α
  | 0, l, _ => l
  | gas + 1, l, idx =>
    if 0 < idx ∧ cmp v (nth l ((idx - 1) / 2)) < 0 then
      sift_up_go cmp v gas (swapL l idx ((idx - 1) / 2)) ((idx - 1) / 2)
    else l

/-- `pq_insert`'s sift-up loop started at `idx`; fuel `idx` is enough because
the index strictly decreases at every iteration. -/
def sift_up [Inhabited α] (cmp : α → α → Int) (l : List α) (v : α) (idx : Nat) : List α :=
  sift_up_go cmp v idx l idx

/-- The mutation `pq_remove` performs on the occupied slots: detach the root
(`DEQUEUE` reads `arr[0]` and decrements `len`); if the queue became empty
return the root, otherwise move the old last occupied slot into the root
(`pq->arr[0] = pq->arr[pq->len]`) and sift down from index 0.  Returns the
detached value and the new occupied slots; `none` corresponds to the fatal
empty-queue path, handled by the caller-facing wrapper. -/
def removeList [Inhabited α] (cmp : α → α → Int) (l : List α) :
    Option (α × List α) :=
  match l with
  | [] => none
  | [a] => some (a, [])
  | a :: rest => some (a, sift_down cmp (rest.getLast! :: rest.dropLast) 0)

/-- Repeatedly `pq_remove` until empty, collecting the returned values, with
explicit fuel (one unit per removal). -/
def drain_go [Inhabited α] (cmp : α → α → Int) : Nat → List α → List α
  | 0, _ => []
  | gas + 1, l =>
    match removeList cmp l with
    | none => []
    | some (a, rest) => a :: drain_go cmp gas rest

/-- The sequence of values obtained by draining the occupied slots `l` via
repeated `pq_remove`.  Fuel `l.length` is exact: every removal shortens the
occupied slots by one. -/
def drain [Inhabited α] (cmp : α → α → Int) (l : List α) : List α :=
  drain_go cmp l.length l

/-- The heap-order invariant of the occupied slots: every occupied slot
compares `≤ 0` against each of its occupied children `2i+1` and `2i+2`. -/
def IsHeap [Inhabited α] (cmp : α → α → Int) (l : List α) : Prop :=
  ∀ i, i < l.length →
    (2 * i + 1 < l.length → cmp (nth l i) (nth l (2 * i + 1)) ≤ 0) ∧
    (2 * i + 2 < l.length → cmp (nth l i) (nth l (2 * i + 2)) ≤ 0)

instance [Inhabited α] (cmp : α → α → Int) (l : List α) :
    Decidable (IsHeap cmp l) := by
  unfold IsHeap; infer_instance

/-- The comparator contract of `pq.h`: `compare(a, b)` is negative exactly
when `b` outranks… i.e. when `a` has strictly higher priority than `b`
(equivalently `compare(b, a)` is positive), and the induced "not lower
priority" relation `compare(a, b) ≤ 0` is transitive. -/
def ValidCmp (cmp : α → α → Int) : Prop :=
  (∀ a b, cmp a b < 0 ↔ 0 < cmp b a) ∧
  (∀ a b c, cmp a b ≤ 0 → cmp b c ≤ 0 → cmp a c ≤ 0)

instance (cmp : Fin n → Fin n → Int) [DecidableEq (Fin n)] :
    Decidable (ValidCmp cmp) := by
  unfold ValidCmp; infer_instance

end Guilib

namespace Guilib

/-! ## The priority queue structure and its caller-facing API -/

/-- The `struct _pq_t` of `src/pq.c`: capacity `size`, comparator `compare`,
and the occupied slots of `arr` (whose length is the `len` field). -/
structure PQ (α : Type) where
  size : Nat
  compare : α → α → Int
  arr : List α

/-- Length field of the queue (`pq->len`): the number of occupied slots. -/
def PQ.len (q : PQ α) : Nat := q.arr.length

/-- Outcome of a C call in the embedding: a normal return, a fatal path that
prints a diagnostic on `stderr` and calls `abort()` (never returning a value
to the caller), or undefined behaviour (a dereference of a null pointer with
no diagnostic). -/
inductive COut (α : Type) where
  | ok (a : α)
  | fatal (msg : String)
  | undef
deriving DecidableEq

/-- Whether the outcome is the diagnostic-then-`abort()` path. -/
def COut.isFatal : COut α → Bool
  | .fatal _ => true
  | _ => false

/-- `pq_create`: aborts with a diagnostic when the comparator is null,
otherwise returns an empty queue of the given capacity. -/
def pq_create (size : Nat) (func : Option (α → α → Int)) : COut (PQ α) :=
  match func with
  | none => .fatal "pq_error: Compare function must not be nullptr"
  | some f => .ok ⟨size, f, []⟩

/-- Successful-path body of `pq_insert`: wrap the value in a fresh node,
append it at index `len` (the `QUEUE` macro), and sift up from there. -/
def PQ.insert [Inhabited α] (q : PQ α) (v : α) : PQ α :=
  { q with arr := sift_up q.compare (q.arr ++ [v]) v q.arr.length }

/-- Diagnostic printed by `pq_insert` when the queue is full. -/
def fullMsg (q : PQ α) : String :=
  "pq_error: New length " ++ toString (q.len + 1) ++
    " is greater than pq size " ++ toString q.size

/-- `pq_insert`: fatal on a null queue and on `len + 1 > size`; otherwise
inserts and restores the heap order. -/
def pq_insert [Inhabited α] (q : Option (PQ α)) (v : α) : COut (PQ α) :=
  match q with
  | none => .fatal "pq_error: Trying to insert to nullptr"
  | some q =>
    if q.len + 1 > q.size then .fatal (fullMsg q)
    else .ok (q.insert v)

/-- `pq_is_empty`: dereferences the queue with **no** null check
(`return !pq->len;`), so the null case is undefined behaviour, not a
diagnostic abort. -/
def pq_is_empty (q : Option (PQ α)) : COut Bool :=
  match q with
  | none => .undef
  | some q => .ok (decide (q.len = 0))

/-- `pq_peek`: fatal on a null queue and on an empty queue, otherwise the
value at the root slot. -/
def pq_peek [Inhabited α] (q : Option (PQ α)) : COut α :=
  match q with
  | none => .fatal "pq_error: Trying to peek in nullptr"
  | some q =>
    if q.len = 0 then .fatal "pq_error: Trying to access element in empty pq"
    else .ok (nth q.arr 0)

/-- `pq_remove`: fatal on a null queue and on an empty queue, otherwise the
detached root value together with the mutated queue. -/
def pq_remove [Inhabited α] (q : Option (PQ α)) : COut (α × PQ α) :=
  match q with
  | none => .fatal "pq_error: Trying to remove from nullptr"
  | some q =>
    match removeList q.compare q.arr with
    | none => .fatal "pq_error: Trying to remove element from empty pq"
    | some (a, rest) => .ok (a, { q with arr := rest })

/-- `pq_len`: fatal on a null queue, otherwise the length field. -/
def pq_len (q : Option (PQ α)) : COut Nat :=
  match q with
  | none => .fatal "pq_error: Trying to get len from nullptr"
  | some q => .ok q.len

/-- `pq_size`: fatal on a null queue, otherwise the capacity field. -/
def pq_size (q : Option (PQ α)) : COut Nat :=
  match q with
  | none => .fatal "pq_error: Trying to get size from nullptr"
  | some q => .ok q.size

/-- `pq_copy`: fatal on a null source, otherwise a new queue with the same
capacity, comparator, and occupied slots (the slot-by-slot loop followed by
the `memcpy` copies exactly the handles of the source array). -/
def pq_copy (q : Option (PQ α)) : COut (PQ α) :=
  match q with
  | none => .fatal "pq_error: Trying to copy from nullptr"
  | some q => .ok ⟨q.size, q.compare, q.arr⟩

/-- `pq_destroy` dereferences the queue with no null check; the null case is
undefined behaviour.  The per-node reference-count bookkeeping is modelled by
the world semantics below; at the queue level destruction simply invalidates
the queue. -/
def pq_destroy (q : Option (PQ α)) : COut Unit :=
  match q with
  | none => .undef
  | some _ => .ok ()

/-- A single `pq_insert` or `pq_remove` call on a (non-null) queue, `none`
when the call takes a fatal path. -/
def runOp [Inhabited α] (q : PQ α) : (Option α) → Option (PQ α)
  | some v =>
    match pq_insert (some q) v with
    | .ok q' => some q'
    | _ => none
  | none =>
    match pq_remove (some q) with
    | .ok p => some p.2
    | _ => none

/-- A sequence of `pq_insert` (`some v`) and `pq_remove` (`none`) calls,
`none` as soon as one of them takes a fatal path. -/
def runOps [Inhabited α] (q : PQ α) : List (Option α) → Option (PQ α)
  | [] => some q
  | op :: ops =>
    match runOp q op with
    | none => none
    | some q' => runOps q' ops

/-- Fold of `pq_insert` over a list of values, stopping at the first fatal
path. -/
def insertAll [Inhabited α] (q : PQ α) : List α → COut (PQ α)
  | [] => .ok q
  | v :: vs =>
    match pq_insert (some q) v with
    | .ok q' => insertAll q' vs
    | .fatal m => .fatal m
    | .undef => .undef

end Guilib

namespace Guilib

variable {α : Type} [Inhabited α]

/-- Loop invariant of `pq_remove`'s sift-down: the heap order holds at every
parent other than `k`, and (when `k` is not the root) `k`'s parent already
compares `≤` against `k`'s children. -/
def HeapExceptDown (cmp : α → α → Int) (l : List α) (k : Nat) : Prop :=
  (∀ i j, (j = 2 * i + 1 ∨ j = 2 * i + 2) → j < l.length → i ≠ k →
    cmp (nth l i) (nth l j) ≤ 0) ∧
  (∀ j, (j = 2 * k + 1 ∨ j = 2 * k + 2) → j < l.length → 0 < k →
    cmp (nth l ((k - 1) / 2)) (nth l j) ≤ 0)

/-- Loop invariant of `pq_insert`'s sift-up: slot `k` holds the freshly
inserted value `v`, the heap order holds at every edge not pointing into `k`,
and `k`'s parent already compares `≤` against `k`'s children. -/
def HeapExceptUp (cmp : α → α → Int) (l : List α) (k : Nat) (v : α) : Prop :=
  nth l k = v ∧
  (∀ i j, (j = 2 * i + 1 ∨ j = 2 * i + 2) → j < l.length → j ≠ k →
    cmp (nth l i) (nth l j) ≤ 0) ∧
  (∀ j, (j = 2 * k + 1 ∨ j = 2 * k + 2) → j < l.length → 0 < k →
    cmp (nth l ((k - 1) / 2)) (nth l j) ≤ 0)

/-! ## `pq_print` -/
/-- The per-node reference-count table (node identifier to `copies` field),
and the in-place update (`arr[i]->copies += d`) of one node's count. -/
def bump (cs : List (Nat × Int)) (n : Nat) (d : Int) : List (Nat × Int) :=
  cs.map (fun p => if p.1 = n then (p.1, p.2 + d) else p)

/-- The increment loop of `pq_copy`: `pq_ptr->arr[i]->copies++` for every
copied slot. -/
def bumpAll (cs : List (Nat × Int)) (slots : List (Nat × α)) :
    List (Nat × Int) :=
  slots.foldl (fun acc s => bump acc s.1 1) cs

/-- The printing loop of `pq_print`: repeatedly `pq_remove` the transient
copy (which decrements the removed node's `copies` field), rendering each
removed value with `to_str` followed by a space unless the copy became empty
(`printf(!pq_len(cp) ? "%s" : "%s ", str)`). -/
def print_go [Inhabited α] (cmp : (Nat × α) → (Nat × α) → Int) :
    Nat → List (Nat × Int) → List (Nat × α) → (α → String) →
    List (Nat × Int) × String
  | 0, cs, _, _ => (cs, "")
  | gas + 1, cs, slots, f =>
    match removeList cmp slots with
    | none => (cs, "")
    | some (s, rest) =>
      let r := print_go cmp gas (bump cs s.1 (-1)) rest f
      (r.1, (if rest.length = 0 then f s.2 else f s.2 ++ " ") ++ r.2)

/-- A queue as seen by the reference-counting world semantics: its slots hold
node identifiers paired with the node values. -/
structure WQueue (α : Type) where
  size : Nat
  compare : α → α → Int
  slots : List (Nat × α)

/-- The comparator the C code applies to node handles: compare the `val`
fields (`pq->compare(a->val, b->val)`). -/
def cmpN (q : WQueue α) : (Nat × α) → (Nat × α) → Int :=
  fun a b => q.compare a.2 b.2

/-- `pq_print` on a (non-null) queue with a (non-null) `to_str`: build the
transient copy (same slots, every copied node's count incremented), drain it
while printing, and destroy the empty transient copy with a null release
function (which at that point touches no node).  Returns the final count
table and the emitted text; the queue itself is only read. -/
def printW [Inhabited α] (cs : List (Nat × Int)) (q : WQueue α)
    (f : α → String) : List (Nat × Int) × String :=
  print_go (cmpN q) q.slots.length (bumpAll cs q.slots) q.slots f

/-- Space-separated rendering with no trailing separator. -/
def joinSp : List String → String
  | [] => ""
  | [x] => x
  | x :: xs => x ++ " " ++ joinSp xs

/-- Text emitted by draining a plain value list (`pq_print`'s output as seen
at the queue level, used by the caller-facing `pq_print` wrapper). -/
def render_go [Inhabited α] (cmp : α → α → Int) :
    Nat → List α → (α → String) → String
  | 0, _, _ => ""
  | gas + 1, l, f =>
    match removeList cmp l with
    | none => ""
    | some (a, rest) =>
      (if rest.length = 0 then f a else f a ++ " ") ++ render_go cmp gas rest f

/-- `pq_print`: fatal on a null queue and on a null `to_str`; otherwise
prints the priority-ordered rendering of the values. -/
def pq_print [Inhabited α] (q : Option (PQ α)) (f : Option (α → String)) :
    COut String :=
  match q with
  | none => .fatal "pq_error: Trying to print nullptr"
  | some q =>
    match f with
    | none => .fatal "pq_error: Must provide a print function"
    | some f => .ok (render_go q.compare q.arr.length q.arr f)

/-! ## The reference-counting world semantics
`pq_insert` allocates a fresh node with `copies = 1`; `pq_copy` shares the
source's nodes and increments each copied node's count; `pq_remove`
decrements the detached node's count (without freeing it); `pq_destroy`
decrements every occupied node's count and releases exactly the nodes whose
count reaches zero.  A world tracks every allocated node's `copies` field
and every live queue. -/
/-- Node-count lookup (`node->copies` for the node with identifier `n`). -/
def lookupC (cs : List (Nat × Int)) (n : Nat) : Option Int :=
  (cs.find? (fun p => p.1 == n)).map (·.2)

/-- Global state: allocation counters for fresh node/queue identifiers, the
`copies` field of every allocated (not yet freed) node, and the live queues. -/
structure World (α : Type) where
  nextNode : Nat
  nextQueue : Nat
  counts : List (Nat × Int)
  queues : List (Nat × WQueue α)

/-- The initial world: nothing allocated. -/
def w0 (α : Type) : World α := ⟨0, 0, [], []⟩

/-- Look up a live queue by identifier (a dangling identifier is a
null/absent queue). -/
def findQ (qs : List (Nat × WQueue α)) (qid : Nat) : Option (WQueue α) :=
  (qs.find? (fun p => p.1 == qid)).map (·.2)

/-- Mutate the queue with identifier `qid` in place. -/
def updQ (qs : List (Nat × WQueue α)) (qid : Nat) (f : WQueue α → WQueue α) :
    List (Nat × WQueue α) :=
  qs.map (fun p => if p.1 = qid then (p.1, f p.2) else p)

/-- The loop of `pq_destroy`: for each occupied slot decrement the node's
count (`!--pq->arr[i]->copies`); when it reaches zero the node is released
(the release callback runs on its value, and the node struct is freed, i.e.
removed from the table).  Returns the final table and the released slots in
order. -/
def releaseSlots : List (Nat × Int) → List (Nat × α) →
    List (Nat × Int) × List (Nat × α)
  | cs, [] => (cs, [])
  | cs, s :: rest =>
    let cs1 := bump cs s.1 (-1)
    if lookupC cs1 s.1 = some 0 then
      let r := releaseSlots (cs1.filter (fun p => decide (p.1 ≠ s.1))) rest
      (r.1, s :: r.2)
    else
      let r := releaseSlots cs1 rest
      (r.1, r.2)

/-- One API call of the world semantics. -/
inductive WOp (α : Type) where
  | create (size : Nat) (cmp : α → α → Int)
  | insert (qid : Nat) (v : α)
  | copy (qid : Nat)
  | remove (qid : Nat)
  | destroy (qid : Nat)

/-- `pq_create` with a non-null comparator: a fresh empty queue. -/
def createW (w : World α) (size : Nat) (cmp : α → α → Int) : World α :=
  { w with nextQueue := w.nextQueue + 1,
           queues := w.queues ++ [(w.nextQueue, ⟨size, cmp, []⟩)] }

/-- `pq_insert` on queue `qid`: `none` on a dangling queue or a full queue
(the fatal paths); otherwise allocate a fresh node with `copies = 1`, append
it and sift up. -/
def insertW [Inhabited α] (w : World α) (qid : Nat) (v : α) :
    Option (World α) :=
  match findQ w.queues qid with
  | none => none
  | some q =>
    if q.slots.length + 1 > q.size then none
    else some { w with
      nextNode := w.nextNode + 1,
      counts := (w.nextNode, 1) :: w.counts,
      queues := updQ w.queues qid (fun qq => { qq with
        slots := sift_up (cmpN qq) (qq.slots ++ [(w.nextNode, v)])
          (w.nextNode, v) qq.slots.length }) }

/-- `pq_copy` of queue `qid`: `none` on a dangling queue (the fatal path);
otherwise a fresh queue sharing the source's slots, each copied node's count
incremented by one. -/
def copyW (w : World α) (qid : Nat) : Option (World α) :=
  match findQ w.queues qid with
  | none => none
  | some q => some { w with
      nextQueue := w.nextQueue + 1,
      counts := bumpAll w.counts q.slots,
      queues := w.queues ++ [(w.nextQueue, ⟨q.size, q.compare, q.slots⟩)] }

/-- `pq_remove` on queue `qid`: `none` on a dangling or empty queue (the
fatal paths); otherwise detach the root slot, decrement its node's count
(the node is *not* freed even at zero), and restore the heap. -/
def removeW [Inhabited α] (w : World α) (qid : Nat) : Option (World α) :=
  match findQ w.queues qid with
  | none => none
  | some q =>
    match removeList (cmpN q) q.slots with
    | none => none
    | some (s, rest) => some { w with
        counts := bump w.counts s.1 (-1),
        queues := updQ w.queues qid (fun qq => { qq with slots := rest }) }

/-- `pq_destroy` of queue `qid`: `none` on a dangling queue (a null queue is
dereferenced, undefined behaviour); otherwise run the release loop over the
occupied slots and discard the queue.  Also returns the released slots (the
values the release callback is invoked on, in order). -/
def destroyW (w : World α) (qid : Nat) :
    Option (World α × List (Nat × α)) :=
  match findQ w.queues qid with
  | none => none
  | some q =>
    let r := releaseSlots w.counts q.slots
    let w2 : World α := { w with
      counts := r.1,
      queues := w.queues.filter (fun p => decide (p.1 ≠ qid)) }
    some (w2, r.2)

/-- One step of the world semantics; `none` when the call does not return
normally. -/
def wstep [Inhabited α] (w : World α) : WOp α → Option (World α)
  | .create size cmp => some (createW w size cmp)
  | .insert qid v => insertW w qid v
  | .copy qid => copyW w qid
  | .remove qid => removeW w qid
  | .destroy qid => (destroyW w qid).map (·.1)

/-- Run a sequence of API calls from a world; `none` as soon as one call
does not return normally. -/
def runW [Inhabited α] (w : World α) : List (WOp α) → Option (World α)
  | [] => some w
  | op :: ops =>
    match wstep w op with
    | none => none
    | some w' => runW w' ops

/-- Node identifiers of a queue's occupied slots. -/
def ids (q : WQueue α) : List Nat := q.slots.map (·.1)

/-- Number of occupied slots of queue `q` holding node `n`. -/
def occQ (q : WQueue α) (n : Nat) : Nat := (ids q).count n

/-- Total number of occupied slots across all live queues holding node `n`. -/
def occW (w : World α) (n : Nat) : Nat :=
  (w.queues.map (fun p => occQ p.2 n)).sum

/-- Number of live queues that include node `n` among their occupied slots. -/
def holders (w : World α) (n : Nat) : Nat :=
  w.queues.countP (fun p => decide (0 < occQ p.2 n))

/-- Well-formedness of a world: every allocated node's count equals its
total number of occupied slots; no queue holds the same node twice; the
count table and queue registry are keyed uniquely; allocated identifiers are
below the allocation counters; every held node is still allocated. -/
structure WF (w : World α) : Prop where
  countOcc : ∀ p ∈ w.counts, p.2 = (occW w p.1 : Int)
  qNodup : ∀ p ∈ w.queues, (ids p.2).Nodup
  keysNodup : (w.counts.map (·.1)).Nodup
  qidNodup : (w.queues.map (·.1)).Nodup
  nodeFresh : ∀ p ∈ w.counts, p.1 < w.nextNode
  slotFresh : ∀ p ∈ w.queues, ∀ s ∈ p.2.slots, s.1 < w.nextNode
  qidFresh : ∀ p ∈ w.queues, p.1 < w.nextQueue
  slotKeys : ∀ p ∈ w.queues, ∀ s ∈ p.2.slots, s.1 ∈ w.counts.map (·.1)

/-! ## Correctness of `pq_print` -/
/-- The decrement loop performed by the removals of `pq_print`'s drain. -/
def decAll (cs : List (Nat × Int)) (slots : List (Nat × α)) :
    List (Nat × Int) :=
  slots.foldl (fun acc s => bump acc s.1 (-1)) cs

/-! ## The hash-table stub of `src/ht.c` -/
/-- The `struct _ht_t` of `src/ht.c`: current length, bucket count, the key
equality and hash callbacks, and the stored key/value/next entries. -/
structure HT (κ ν : Type) where
  len : Nat
  size : Nat
  equal : κ → κ → Int
  hash : κ → Nat
  arr : List (κ × ν × Nat)

/-- `ht_create`: the initialiser `ht->len = 0, ht->size = 0, …` stores `0`
in the `size` field regardless of the `size` argument (which is used only
for the `malloc` of the backing array); the table starts empty. -/
def ht_create {κ ν : Type} (size : Nat) (eq : κ → κ → Int)
    (hf : κ → Nat) : HT κ ν :=
  ⟨0, 0, eq, hf, []⟩

/-- Diagnostic printed by `ht_insert`'s capacity check. -/
def htFullMsg {κ ν : Type} (ht : HT κ ν) : String :=
  "ht_error: New length " ++ toString (ht.len + 1) ++
    " is greater than ht size " ++ toString ht.size

/-- `ht_insert`: aborts when `ht->len + 1 >= ht->size`; the function body
after the guard is empty, so a (hypothetically) passing call would return
with the table unchanged. -/
def ht_insert {κ ν : Type} (ht : HT κ ν) (k : κ) (v : ν) :
    COut (HT κ ν) :=
  if ht.len + 1 ≥ ht.size then .fatal (htFullMsg ht)
  else .ok ht

/-- Comparator used in the concrete witnesses: ascending integer priority. -/
def intCmp : Int → Int → Int := fun a b => a - b

/-- Comparator on `Fin n` used in the concrete witnesses. -/
def finCmp : Fin 4 → Fin 4 → Int := fun a b => (a.val : Int) - (b.val : Int)

/-! ## Support definitions for the claims -/
/-- The caller's drain loop: `n` successive `pq_remove` calls, collecting the
removed values in order; `none` as soon as one call takes a fatal path. -/
def removeN : Nat → PQ α → Option (List α × PQ α)
  | 0, q => some ([], q)
  | n + 1, q =>
    match pq_remove (some q) with
    | .ok (a, q') =>
      match removeN n q' with
      | some (out, qf) => some (a :: out, qf)
      | _ => none
    | _ => none

/-- The reference-count invariant as the spec states it: every allocated
node's `copies` field equals the number of live queues that include that node
among their occupied slots. -/
def CountsAreHolders (w : World α) : Prop :=
  ∀ p ∈ w.counts, p.2 = (holders w p.1 : Int)

/-- Concrete API-call sequence used as the reference-count witness. -/
def exOps4 : List (WOp Int) :=
  [.create 4 intCmp, .insert 0 5, .insert 0 7, .copy 0, .remove 0]

/-- The world the witness call sequence reaches. -/
def exW4 : World Int := (runW (w0 Int) exOps4).get (by rfl)

/-- Concrete API-call sequence used as the shared-release witness. -/
def exOps5 : List (WOp Int) := [.create 2 intCmp, .insert 0 5]

/-- The world the shared-release witness sequence reaches. -/
def exW5 : World Int := (runW (w0 Int) exOps5).get (by rfl)

/-- The world reached by the copy-independence witness sequence. -/
def exW7 : World Int :=
  (runW (w0 Int) [.create 2 intCmp, .insert 0 5]).get (by rfl)

/-- The copy-independence witness world after `pq_copy` of queue `0`. -/
def exW7a : World Int := (copyW exW7 0).get (by rfl)

/-- The copy-independence witness world after inserting into the copy. -/
def exW7b : World Int := (insertW exW7a 1 9).get (by rfl)

/-- The copy-independence witness world after removing from the original. -/
def exW7c : World Int := (removeW exW7a 0).get (by rfl)

/-- The queue the heap-invariant witness call sequence reaches. -/
def exQ3 : PQ (Fin 4) :=
  (runOps (⟨3, finCmp, []⟩ : PQ (Fin 4))
    [some 2, some 1, none, some 3]).get (by rfl)

/-! ## Basic facts about slot access and the swap of two slots -/
theorem nth_eq_getElem (l : List α) (i : Nat) (h : i < l.length) :
    nth l i = l[i] := by
  simp [nth, List.getD_eq_getElem?_getD, List.getElem?_eq_getElem h]

theorem nth_cons_zero (a : α) (t : List α) : nth (a :: t) 0 = a := rfl

theorem nth_cons_succ (a : α) (t : List α) (i : Nat) :
    nth (a :: t) (i + 1) = nth t i := by
  simp [nth]

theorem nth_set (l : List α) (i k : Nat) (x : α) :
    nth (l.set i x) k = if k = i ∧ i < l.length then x else nth l k := by
  simp only [nth, List.getD_eq_getElem?_getD, List.getElem?_set]
  by_cases h1 : k = i
  · subst h1
    by_cases h2 : k < l.length
    · simp [h2]
    · simp [h2, List.getElem?_eq_none (Nat.le_of_not_lt h2)]
  · have h2 : ¬ (i = k) := fun h => h1 h.symm
    simp [h1, h2]

theorem length_swapL (l : List α) (i j : Nat) :
    (swapL l i j).length = l.length := by
  simp [swapL]

theorem nth_swapL (l : List α) (i j k : Nat) (hi : i < l.length)
    (hj : j < l.length) :
    nth (swapL l i j) k =
      if k = j then nth l i else if k = i then nth l j else nth l k := by
  simp only [swapL, nth_set, List.length_set, hi, hj, and_true]

theorem cons_set_perm (t : List α) (k : Nat) (a : α) (hk : k < t.length) :
    (nth t k :: t.set k a).Perm (a :: t) := by
  induction t generalizing k with
  | nil => simp at hk
  | cons b s ih =>
    cases k with
    | zero => exact List.Perm.swap a b s
    | succ m =>
      simp only [nth_cons_succ, List.set_cons_succ]
      have step1 : (nth s m :: b :: s.set m a).Perm (b :: nth s m :: s.set m a) :=
        List.Perm.swap b (nth s m) _
      have step2 : (b :: nth s m :: s.set m a).Perm (b :: a :: s) :=
        (ih m (by simpa using hk)).cons b
      exact (step1.trans step2).trans (List.Perm.swap a b s)

theorem swapL_perm (l : List α) (i j : Nat) (hi : i < l.length)
    (hj : j < l.length) : (swapL l i j).Perm l := by
  induction l generalizing i j with
  | nil => simp at hi
  | cons a s ih =>
    match i, j with
    | 0, 0 =>
      show ((( a :: s).set 0 (nth (a :: s) 0)).set 0 (nth (a :: s) 0)).Perm _
      simp [nth_cons_zero]
    | 0, m + 1 =>
      show (((a :: s).set 0 (nth (a :: s) (m+1))).set (m+1) (nth (a :: s) 0)).Perm _
      simp only [nth_cons_succ, nth_cons_zero, List.set_cons_zero,
        List.set_cons_succ]
      exact cons_set_perm s m a (by simpa using hj)
    | k + 1, 0 =>
      show (((a :: s).set (k+1) (nth (a :: s) 0)).set 0 (nth (a :: s) (k+1))).Perm _
      simp only [nth_cons_succ, nth_cons_zero, List.set_cons_succ,
        List.set_cons_zero]
      exact cons_set_perm s k a (by simpa using hi)
    | k + 1, m + 1 =>
      show (((a :: s).set (k+1) (nth (a :: s) (m+1))).set (m+1)
        (nth (a :: s) (k+1))).Perm _
      simp only [nth_cons_succ, List.set_cons_succ]
      exact (ih k m (by simpa using hi) (by simpa using hj)).cons a

/-! ## The sift loops permute the slots -/
theorem sift_down_go_perm (cmp : α → α → Int) :
    ∀ gas (l : List α) (idx : Nat), (sift_down_go cmp gas l idx).Perm l := by
  intro gas
  induction gas with
  | zero => intro l idx; exact List.Perm.refl l
  | succ g ih =>
    intro l idx
    show (sift_down_go cmp (g + 1) l idx).Perm l
    rw [sift_down_go]
    split
    case isTrue hcond =>
      have hleft : 2 * idx + 1 < l.length := by omega
      split
      case isTrue hl =>
        exact (ih _ _).trans (swapL_perm l idx (2 * idx + 1) (by omega) hleft)
      case isFalse hr =>
        have hright : 2 * idx + 2 < l.length := by
          have h1 : ¬ l.length ≤ 2 * idx + 2 := fun h => hr (Or.inl h)
          omega
        exact (ih _ _).trans (swapL_perm l idx (2 * idx + 2) (by omega) hright)
    case isFalse _ => exact List.Perm.refl l

theorem sift_down_perm (cmp : α → α → Int) (l : List α) (idx : Nat) :
    (sift_down cmp l idx).Perm l :=
  sift_down_go_perm cmp l.length l idx

theorem sift_up_go_perm (cmp : α → α → Int) (v : α) :
    ∀ gas (l : List α) (idx : Nat), idx < l.length →
      (sift_up_go cmp v gas l idx).Perm l := by
  intro gas
  induction gas with
  | zero => intro l idx _; exact List.Perm.refl l
  | succ g ih =>
    intro l idx hidx
    show (sift_up_go cmp v (g + 1) l idx).Perm l
    rw [sift_up_go]
    split
    case isTrue hcond =>
      have hup : (idx - 1) / 2 < l.length := by omega
      have := ih (swapL l idx ((idx - 1) / 2)) ((idx - 1) / 2)
        (by rw [length_swapL]; exact hup)
      exact this.trans (swapL_perm l idx ((idx - 1) / 2) hidx hup)
    case isFalse _ => exact List.Perm.refl l

theorem sift_up_perm (cmp : α → α → Int) (l : List α) (v : α) (idx : Nat)
    (hidx : idx < l.length) : (sift_up cmp l v idx).Perm l :=
  sift_up_go_perm cmp v idx l idx hidx

theorem length_sift_down (cmp : α → α → Int) (l : List α) (idx : Nat) :
    (sift_down cmp l idx).length = l.length :=
  (sift_down_perm cmp l idx).length_eq

theorem length_sift_up (cmp : α → α → Int) (l : List α) (v : α) (idx : Nat)
    (hidx : idx < l.length) : (sift_up cmp l v idx).length = l.length :=
  (sift_up_perm cmp l v idx hidx).length_eq

/-! ## Characterisation of `removeList` -/
theorem getLast!_eq_getLast (l : List α) (h : l ≠ []) :
    l.getLast! = l.getLast h := by
  cases l with
  | nil => exact absurd rfl h
  | cons a t => rfl

theorem removeList_eq_none_iff (cmp : α → α → Int) (l : List α) :
    removeList cmp l = none ↔ l = [] := by
  cases l with
  | nil => simp [removeList]
  | cons a rest => cases rest <;> simp [removeList]

theorem removeList_spec (cmp : α → α → Int) (l : List α) (a : α)
    (rest : List α) (h : removeList cmp l = some (a, rest)) :
    a = nth l 0 ∧ (a :: rest).Perm l ∧ rest.length + 1 = l.length := by
  match l with
  | [] => simp [removeList] at h
  | [x] =>
    simp [removeList] at h
    obtain ⟨rfl, rfl⟩ := h
    exact ⟨rfl, List.Perm.refl _, rfl⟩
  | x :: y :: t =>
    simp only [removeList, Option.some.injEq, Prod.mk.injEq] at h
    obtain ⟨rfl, rfl⟩ := h
    refine ⟨rfl, ?_, ?_⟩
    · have hne : y :: t ≠ [] := by simp
      have hdec : (y :: t).dropLast ++ [(y :: t).getLast hne] = y :: t :=
        List.dropLast_append_getLast hne
      have hperm1 : (sift_down cmp ((y :: t).getLast! :: (y :: t).dropLast) 0).Perm
          ((y :: t).getLast! :: (y :: t).dropLast) := sift_down_perm cmp _ 0
      have hperm2 : ((y :: t).getLast! :: (y :: t).dropLast).Perm (y :: t) := by
        rw [getLast!_eq_getLast _ hne]
        have hp := (List.perm_append_singleton ((y :: t).getLast hne)
          ((y :: t).dropLast)).symm
        rw [hdec] at hp
        exact hp
      exact ((hperm1.trans hperm2).cons x)
    · have : (sift_down cmp ((y :: t).getLast! :: (y :: t).dropLast) 0).length
          = ((y :: t).getLast! :: (y :: t).dropLast).length := length_sift_down ..
      simp [this]

/-! ## Consequences of the comparator contract -/
omit [Inhabited α] in
theorem ValidCmp.cmp_self {cmp : α → α → Int} (hv : ValidCmp cmp) (a : α) :
    cmp a a ≤ 0 := by
  by_contra h
  push_neg at h
  have := (hv.1 a a).mpr h
  omega

omit [Inhabited α] in
theorem ValidCmp.flip_pos {cmp : α → α → Int} (hv : ValidCmp cmp) {a b : α}
    (h : 0 < cmp a b) : cmp b a < 0 :=
  (hv.1 b a).mpr h

omit [Inhabited α] in
theorem ValidCmp.flip_nonneg {cmp : α → α → Int} (hv : ValidCmp cmp) {a b : α}
    (h : 0 ≤ cmp a b) : cmp b a ≤ 0 := by
  by_contra hc
  push_neg at hc
  have := (hv.1 a b).mpr hc
  omega

/-- Pairwise reading of the heap invariant: every child in range compares
`≥` its parent. -/
theorem isHeap_iff {cmp : α → α → Int} {l : List α} :
    IsHeap cmp l ↔
      ∀ i j, (j = 2 * i + 1 ∨ j = 2 * i + 2) → j < l.length →
        cmp (nth l i) (nth l j) ≤ 0 := by
  constructor
  · intro h i j hij hj
    have hi : i < l.length := by omega
    rcases hij with rfl | rfl
    · exact (h i hi).1 hj
    · exact (h i hi).2 hj
  · intro h i _
    exact ⟨fun hj => h i _ (Or.inl rfl) hj, fun hj => h i _ (Or.inr rfl) hj⟩

/-- One step of sift-down preserves the loop invariant: swapping `k` with the
selected child `c` (the other in-range child being `o`) moves the possibly
misplaced slot to `c`. -/
theorem hed_step {cmp : α → α → Int} (hv : ValidCmp cmp) (l : List α)
    (k c o : Nat)
    (hco : (c = 2 * k + 1 ∧ o = 2 * k + 2) ∨ (c = 2 * k + 2 ∧ o = 2 * k + 1))
    (hc : c < l.length)
    (hviol : 0 < cmp (nth l k) (nth l c))
    (hmin : o < l.length → cmp (nth l c) (nth l o) ≤ 0)
    (h : HeapExceptDown cmp l k) :
    HeapExceptDown cmp (swapL l k c) c := by
  have hk : k < l.length := by omega
  have hkc : k ≠ c := by omega
  have ec : nth (swapL l k c) c = nth l k := by
    rw [nth_swapL l k c c hk hc]; simp
  have ek : nth (swapL l k c) k = nth l c := by
    rw [nth_swapL l k c k hk hc]; simp [hkc]
  have eu : ∀ x, x ≠ c → x ≠ k → nth (swapL l k c) x = nth l x := by
    intro x h1 h2
    rw [nth_swapL l k c x hk hc]; simp [h1, h2]
  constructor
  · intro i j hij hjlen hic
    rw [length_swapL] at hjlen
    by_cases hik : i = k
    · have hjco : j = c ∨ j = o := by omega
      rcases hjco with hj1 | hj1
      · rw [hik, hj1, ek, ec]
        exact le_of_lt (hv.flip_pos hviol)
      · have hoc : o ≠ c := by omega
        have hok : o ≠ k := by omega
        rw [hik, hj1, ek, eu o hoc hok]
        exact hmin (hj1 ▸ hjlen)
    · by_cases hjk : j = k
      · have hpk : i = (k - 1) / 2 := by omega
        rw [hjk, eu i hic hik, ek, hpk]
        exact h.2 c (by omega) hc (by omega)
      · by_cases hjc : j = c
        · exact absurd (by omega : i = k) hik
        · rw [eu i hic hik, eu j hjc hjk]
          exact h.1 i j hij hjlen hik
  · intro j hjc hjlen hc0
    rw [length_swapL] at hjlen
    have hpc : (c - 1) / 2 = k := by omega
    have hjnec : j ≠ c := by omega
    have hjnek : j ≠ k := by omega
    rw [hpc, ek, eu j hjnec hjnek]
    exact h.1 c j hjc hjlen (by omega)

/-- The sift-down loop of `pq_remove` turns its invariant into the full heap
order, for any fuel at least the remaining depth of the walk. -/
theorem sift_down_go_heap {cmp : α → α → Int} (hv : ValidCmp cmp) :
    ∀ gas (l : List α) (k : Nat), l.length - k ≤ gas →
      HeapExceptDown cmp l k → IsHeap cmp (sift_down_go cmp gas l k) := by
  intro gas
  induction gas with
  | zero =>
    intro l k hgas h
    have e : sift_down_go cmp 0 l k = l := rfl
    rw [e, isHeap_iff]
    intro i j hij hj
    by_cases hik : i = k
    · omega
    · exact h.1 i j hij hj hik
  | succ g ih =>
    intro l k hgas h
    rw [sift_down_go]
    split
    case isFalse hcond =>
      rw [isHeap_iff]
      intro i j hij hj
      by_cases hik : i = k
      · subst hik
        rcases hij with rfl | rfl
        · have h1 : ¬ (2 * i + 1 < l.length ∧
              0 < cmp (nth l i) (nth l (2 * i + 1))) :=
            fun hx => hcond (Or.inl hx)
          by_contra hcc
          exact h1 ⟨hj, by omega⟩
        · have h1 : ¬ (2 * i + 2 < l.length ∧
              0 < cmp (nth l i) (nth l (2 * i + 2))) :=
            fun hx => hcond (Or.inr hx)
          by_contra hcc
          exact h1 ⟨hj, by omega⟩
      · exact h.1 i j hij hj hik
    case isTrue hcond =>
      have hleft : 2 * k + 1 < l.length := by omega
      split
      case isTrue hbr =>
        have hviol : 0 < cmp (nth l k) (nth l (2 * k + 1)) := by
          rcases hcond with ⟨_, h0⟩ | ⟨hr2, h0r⟩
          · exact h0
          · rcases hbr with hlen | hlt
            · omega
            · by_contra hle
              push_neg at hle
              exact absurd (hv.2 _ _ _ hle (le_of_lt hlt)) (by omega)
        have hmin : 2 * k + 2 < l.length →
            cmp (nth l (2 * k + 1)) (nth l (2 * k + 2)) ≤ 0 := by
          intro hr
          rcases hbr with hlen | hlt
          · omega
          · exact le_of_lt hlt
        apply ih
        · rw [length_swapL]; omega
        · exact hed_step hv l k (2 * k + 1) (2 * k + 2) (Or.inl ⟨rfl, rfl⟩)
            hleft hviol hmin h
      case isFalse hbr =>
        have hright : 2 * k + 2 < l.length :=
          by_contra fun hx => hbr (Or.inl (by omega))
        have hge : 0 ≤ cmp (nth l (2 * k + 1)) (nth l (2 * k + 2)) := by
          by_contra hx
          exact hbr (Or.inr (by omega))
        have hmin : 2 * k + 1 < l.length →
            cmp (nth l (2 * k + 2)) (nth l (2 * k + 1)) ≤ 0 :=
          fun _ => hv.flip_nonneg hge
        have hviol : 0 < cmp (nth l k) (nth l (2 * k + 2)) := by
          rcases hcond with ⟨_, h0l⟩ | ⟨_, h0⟩
          · by_contra hle
            push_neg at hle
            exact absurd (hv.2 _ _ _ hle (hmin hleft)) (by omega)
          · exact h0
        apply ih
        · rw [length_swapL]; omega
        · exact hed_step hv l k (2 * k + 2) (2 * k + 1) (Or.inr ⟨rfl, rfl⟩)
            hright hviol hmin h

/-- One step of sift-up preserves the loop invariant: swapping `k` with its
parent `p = (k-1)/2` moves the possibly misplaced slot to `p`. -/
theorem heu_step {cmp : α → α → Int} (hv : ValidCmp cmp) (l : List α)
    (k : Nat) (v : α) (hk : k < l.length) (hk0 : 0 < k)
    (hlt : cmp v (nth l ((k - 1) / 2)) < 0)
    (h : HeapExceptUp cmp l k v) :
    HeapExceptUp cmp (swapL l k ((k - 1) / 2)) ((k - 1) / 2) v := by
  set p := (k - 1) / 2 with hpdef
  have hp : p < l.length := by omega
  have hpk : p ≠ k := by omega
  have ep : nth (swapL l k p) p = v := by
    rw [nth_swapL l k p p hk hp]
    simp [h.1]
  have ek : nth (swapL l k p) k = nth l p := by
    rw [nth_swapL l k p k hk hp]
    simp [Ne.symm hpk]
  have eu : ∀ x, x ≠ p → x ≠ k → nth (swapL l k p) x = nth l x := by
    intro x h1 h2
    rw [nth_swapL l k p x hk hp]; simp [h1, h2]
  refine ⟨ep, ?_, ?_⟩
  · intro i j hij hjlen hjp
    rw [length_swapL] at hjlen
    by_cases hjk : j = k
    · have hip : i = p := by omega
      rw [hjk, hip, ep, ek]
      exact le_of_lt hlt
    · by_cases hip : i = p
      · -- j is the sibling of k under p
        rw [hip, ep, eu j hjp hjk]
        have hold : cmp (nth l p) (nth l j) ≤ 0 :=
          h.2.1 p j (by omega) hjlen hjk
        exact hv.2 _ _ _ (le_of_lt hlt) hold
      · by_cases hik : i = k
        · -- j is a child of k
          rw [hik, ek, eu j hjp hjk]
          exact h.2.2 j (by omega) hjlen hk0
        · rw [eu i hip hik, eu j hjp hjk]
          exact h.2.1 i j hij hjlen hjk
  · intro j hjp hjlen hp0
    rw [length_swapL] at hjlen
    have hpchild : p = 2 * ((p - 1) / 2) + 1 ∨ p = 2 * ((p - 1) / 2) + 2 := by
      omega
    have hppp : (p - 1) / 2 ≠ p := by omega
    have hppk : (p - 1) / 2 ≠ k := by omega
    by_cases hjk : j = k
    · rw [hjk, ek, eu ((p - 1) / 2) hppp hppk]
      exact h.2.1 ((p - 1) / 2) p hpchild hp hpk
    · have hjnep : j ≠ p := by omega
      rw [eu j hjnep hjk, eu ((p - 1) / 2) hppp hppk]
      have h1 : cmp (nth l ((p - 1) / 2)) (nth l p) ≤ 0 :=
        h.2.1 ((p - 1) / 2) p hpchild hp hpk
      have h2 : cmp (nth l p) (nth l j) ≤ 0 :=
        h.2.1 p j hjp hjlen hjk
      exact hv.2 _ _ _ h1 h2

/-- The sift-up loop of `pq_insert` turns its invariant into the full heap
order, for any fuel at least the starting index. -/
theorem sift_up_go_heap {cmp : α → α → Int} (hv : ValidCmp cmp) (v : α) :
    ∀ gas (l : List α) (k : Nat), k ≤ gas → k < l.length →
      HeapExceptUp cmp l k v → IsHeap cmp (sift_up_go cmp v gas l k) := by
  intro gas
  induction gas with
  | zero =>
    intro l k hgas hk h
    have e : sift_up_go cmp v 0 l k = l := rfl
    rw [e, isHeap_iff]
    intro i j hij hj
    exact h.2.1 i j hij hj (by omega)
  | succ g ih =>
    intro l k hgas hk h
    rw [sift_up_go]
    split
    case isFalse hcond =>
      rw [isHeap_iff]
      intro i j hij hj
      by_cases hjk : j = k
      · have hk0 : 0 < k := by omega
        have hip : i = (k - 1) / 2 := by omega
        have hge : ¬ cmp v (nth l ((k - 1) / 2)) < 0 :=
          fun hx => hcond ⟨hk0, hx⟩
        rw [hjk, hip, h.1]
        by_contra hcc
        push_neg at hcc
        exact hge ((hv.1 v (nth l ((k - 1) / 2))).mpr hcc)
      · exact h.2.1 i j hij hj hjk
    case isTrue hcond =>
      apply ih
      · omega
      · rw [length_swapL]; omega
      · exact heu_step hv l k v hk hcond.1 hcond.2 h

/-- `pq_remove` preserves the heap order of the occupied slots. -/
theorem removeList_heap {cmp : α → α → Int} (hv : ValidCmp cmp)
    {l : List α} {a : α} {rest : List α} (hheap : IsHeap cmp l)
    (h : removeList cmp l = some (a, rest)) : IsHeap cmp rest := by
  match l with
  | [] => simp [removeList] at h
  | [x] =>
    simp [removeList] at h
    obtain ⟨rfl, rfl⟩ := h
    intro i hi
    simp at hi
  | x :: y :: t =>
    simp only [removeList, Option.some.injEq, Prod.mk.injEq] at h
    obtain ⟨rfl, rfl⟩ := h
    apply sift_down_go_heap hv
    · exact Nat.le_refl _
    · constructor
      · intro i j hij hjlen hi0
        have hne : (1 : Nat) ≤ i := by omega
        have hlen' : ((y :: t).getLast! :: (y :: t).dropLast).length
            = t.length + 2 - 1 := by simp
        have key : ∀ z, 1 ≤ z → z < t.length + 1 →
            nth ((y :: t).getLast! :: (y :: t).dropLast) z
              = nth (x :: y :: t) z := by
          intro z hz1 hz2
          match z, hz1 with
          | w + 1, _ =>
            rw [nth_cons_succ, nth_cons_succ]
            have hw : w < (y :: t).dropLast.length := by simp; omega
            rw [nth_eq_getElem _ w hw, List.getElem_dropLast,
              ← nth_eq_getElem (y :: t) w (by simp; omega)]
        rw [hlen'] at hjlen
        rw [key i hne (by omega), key j (by omega) (by omega)]
        exact isHeap_iff.mp hheap i j hij (by simp; omega)
      · intro j hj0 hjlen hcon
        omega

/-- `pq_insert` establishes the heap order on the extended occupied slots. -/
theorem insert_heap {cmp : α → α → Int} (hv : ValidCmp cmp) (l : List α)
    (v : α) (hheap : IsHeap cmp l) :
    IsHeap cmp (sift_up cmp (l ++ [v]) v l.length) := by
  apply sift_up_go_heap hv v l.length (l ++ [v]) l.length (Nat.le_refl _)
    (by simp)
  refine ⟨?_, ?_, ?_⟩
  · simp [nth, List.getD_eq_getElem?_getD, List.getElem?_concat_length]
  · intro i j hij hjlen hjk
    simp only [List.length_append, List.length_cons, List.length_nil] at hjlen
    have hj : j < l.length := by omega
    have hi : i < l.length := by omega
    have eapp : ∀ x, x < l.length → nth (l ++ [v]) x = nth l x := by
      intro z hz
      simp [nth, List.getD_eq_getElem?_getD, List.getElem?_append, hz]
    rw [eapp i hi, eapp j hj]
    exact isHeap_iff.mp hheap i j hij hj
  · intro j hj hjlen hk0
    simp only [List.length_append, List.length_cons, List.length_nil] at hjlen
    omega

/-- In a heap, the root outranks or ties every occupied slot. -/
theorem isHeap_root_min {cmp : α → α → Int} (hv : ValidCmp cmp)
    (l : List α) (hheap : IsHeap cmp l) :
    ∀ j, j < l.length → cmp (nth l 0) (nth l j) ≤ 0 := by
  intro j
  induction j using Nat.strong_induction_on with
  | _ j ih =>
    intro hj
    match j with
    | 0 => exact hv.cmp_self (nth l 0)
    | j + 1 =>
      have hchild : (j + 1) = 2 * (j / 2) + 1 ∨ (j + 1) = 2 * (j / 2) + 2 := by
        omega
      have h1 := ih (j / 2) (by omega) (by omega)
      have h2 := isHeap_iff.mp hheap (j / 2) (j + 1) hchild hj
      exact hv.2 _ _ _ h1 h2

/-- Draining a heap yields a permutation of its slots in non-decreasing
priority order. -/
theorem drain_go_spec {cmp : α → α → Int} (hv : ValidCmp cmp) :
    ∀ gas (l : List α), l.length ≤ gas → IsHeap cmp l →
      (drain_go cmp gas l).Perm l ∧
        List.Chain' (fun a b => cmp a b ≤ 0) (drain_go cmp gas l) := by
  intro gas
  induction gas with
  | zero =>
    intro l hlen _
    have : l = [] := List.length_eq_zero.mp (by omega)
    subst this
    exact ⟨List.Perm.refl _, List.chain'_nil⟩
  | succ g ih =>
    intro l hlen hheap
    rw [drain_go]
    cases hrem : removeList cmp l with
    | none =>
      rw [removeList_eq_none_iff] at hrem
      subst hrem
      exact ⟨List.Perm.refl _, List.chain'_nil⟩
    | some p =>
      obtain ⟨a, rest⟩ := p
      obtain ⟨ha, hperm, hlen'⟩ := removeList_spec cmp l a rest hrem
      have hheap' : IsHeap cmp rest := removeList_heap hv hheap hrem
      obtain ⟨ihp, ihc⟩ := ih rest (by omega) hheap'
      refine ⟨(ihp.cons a).trans hperm, ?_⟩
      rw [List.chain'_cons']
      refine ⟨?_, ihc⟩
      intro y hy
      have hym : y ∈ drain_go cmp g rest := List.mem_of_mem_head? hy
      have hyl : y ∈ l :=
        hperm.mem_iff.mp (List.mem_cons_of_mem a (ihp.mem_iff.mp hym))
      obtain ⟨n, hn, rfl⟩ := List.mem_iff_getElem.mp hyl
      rw [ha, ← nth_eq_getElem l n hn]
      exact isHeap_root_min hv l hheap n hn

/-- The two halves of `drain_go_spec` at the canonical fuel. -/
theorem drain_spec {cmp : α → α → Int} (hv : ValidCmp cmp) (l : List α)
    (hheap : IsHeap cmp l) :
    (drain cmp l).Perm l ∧
      List.Chain' (fun a b => cmp a b ≤ 0) (drain cmp l) :=
  drain_go_spec hv l.length l (Nat.le_refl _) hheap

/-! ## Queue-level facts -/
theorem isHeap_nil (cmp : α → α → Int) : IsHeap cmp ([] : List α) := by
  intro i hi
  simp at hi

theorem PQ.insert_compare (q : PQ α) (v : α) :
    (q.insert v).compare = q.compare := rfl

theorem PQ.insert_size (q : PQ α) (v : α) : (q.insert v).size = q.size := rfl

theorem PQ.insert_arr_perm (q : PQ α) (v : α) :
    (q.insert v).arr.Perm (q.arr ++ [v]) :=
  sift_up_perm q.compare (q.arr ++ [v]) v q.arr.length (by simp)

theorem PQ.insert_len (q : PQ α) (v : α) :
    (q.insert v).arr.length = q.arr.length + 1 := by
  rw [(q.insert_arr_perm v).length_eq]
  simp

theorem pq_insert_ok (q : PQ α) (v : α) (h : q.len + 1 ≤ q.size) :
    pq_insert (some q) v = .ok (q.insert v) := by
  simp only [pq_insert]
  rw [if_neg (by omega)]

theorem PQ.insert_isHeap {cmp : α → α → Int} (hv : ValidCmp cmp) (q : PQ α)
    (v : α) (hc : q.compare = cmp) (hh : IsHeap cmp q.arr) :
    IsHeap cmp (q.insert v).arr := by
  show IsHeap cmp (sift_up q.compare (q.arr ++ [v]) v q.arr.length)
  rw [hc]
  exact Guilib.insert_heap hv q.arr v hh

/-- `insertAll` succeeds whenever the values fit in the remaining capacity,
and grows the length by exactly the number of inserted values. -/
theorem insertAll_ok_len :
    ∀ (vs : List α) (q : PQ α), q.arr.length + vs.length ≤ q.size →
      ∃ q', insertAll q vs = .ok q' ∧ q'.size = q.size ∧
        q'.compare = q.compare ∧
        q'.arr.length = q.arr.length + vs.length ∧
        q'.arr.Perm (q.arr ++ vs) := by
  intro vs
  induction vs with
  | nil =>
    intro q _
    exact ⟨q, rfl, rfl, rfl, rfl, by simp⟩
  | cons v vs ih =>
    intro q hcap
    simp only [List.length_cons] at hcap
    have hins : pq_insert (some q) v = .ok (q.insert v) :=
      pq_insert_ok q v (by simp [PQ.len]; omega)
    obtain ⟨q', he, hs, hc, hl, hp⟩ := ih (q.insert v)
      (by rw [q.insert_len, q.insert_size]; omega)
    refine ⟨q', ?_, ?_, ?_, ?_, ?_⟩
    · simp only [insertAll, hins]
      exact he
    · rw [hs, q.insert_size]
    · rw [hc, q.insert_compare]
    · have hil := q.insert_len v
      simp only [List.length_cons]
      omega
    · have h1 : q'.arr.Perm ((q.arr ++ [v]) ++ vs) :=
        hp.trans ((q.insert_arr_perm v).append_right vs)
      simpa using h1

/-- `insertAll` additionally preserves the heap order (under the comparator
contract). -/
theorem insertAll_heap {cmp : α → α → Int} (hv : ValidCmp cmp) :
    ∀ (vs : List α) (q q' : PQ α), q.compare = cmp → IsHeap cmp q.arr →
      insertAll q vs = .ok q' → IsHeap cmp q'.arr := by
  intro vs
  induction vs with
  | nil =>
    intro q q' hc hh he
    simp only [insertAll, COut.ok.injEq] at he
    exact he ▸ hh
  | cons v vs ih =>
    intro q q' hc hh he
    simp only [insertAll] at he
    by_cases hcap : q.len + 1 > q.size
    · simp only [pq_insert, if_pos hcap] at he
      cases he
    · rw [pq_insert_ok q v (by omega)] at he
      exact ih (q.insert v) q' (by rw [q.insert_compare, hc])
        (PQ.insert_isHeap hv q v hc hh) he

/-- A successful `pq_insert` or `pq_remove` preserves the comparator and the
heap order. -/
theorem runOp_heap {cmp : α → α → Int} (hv : ValidCmp cmp) (q q' : PQ α)
    (op : Option α) (hc : q.compare = cmp) (hh : IsHeap cmp q.arr)
    (h : runOp q op = some q') : q'.compare = cmp ∧ IsHeap cmp q'.arr := by
  cases op with
  | some v =>
    simp only [runOp] at h
    by_cases hcap : q.len + 1 > q.size
    · simp only [pq_insert, if_pos hcap] at h
      cases h
    · rw [pq_insert_ok q v (by omega)] at h
      cases h
      exact ⟨by rw [q.insert_compare, hc], PQ.insert_isHeap hv q v hc hh⟩
  | none =>
    simp only [runOp, pq_remove] at h
    cases hrem : removeList q.compare q.arr with
    | none => rw [hrem] at h; cases h
    | some p =>
      rw [hrem] at h
      cases h
      refine ⟨hc, ?_⟩
      show IsHeap cmp p.2
      exact removeList_heap hv (hc ▸ hh) (hc ▸ hrem)

/-- A successful sequence of `pq_insert`/`pq_remove` calls preserves the
comparator and the heap order. -/
theorem runOps_heap {cmp : α → α → Int} (hv : ValidCmp cmp) :
    ∀ (ops : List (Option α)) (q q' : PQ α), q.compare = cmp →
      IsHeap cmp q.arr → runOps q ops = some q' →
      q'.compare = cmp ∧ IsHeap cmp q'.arr := by
  intro ops
  induction ops with
  | nil =>
    intro q q' hc hh h
    cases h
    exact ⟨hc, hh⟩
  | cons op ops ih =>
    intro q q' hc hh h
    simp only [runOps] at h
    cases hop : runOp q op with
    | none => rw [hop] at h; cases h
    | some qi =>
      rw [hop] at h
      obtain ⟨hc', hh'⟩ := runOp_heap hv q qi op hc hh hop
      exact ih qi q' hc' hh' h

/-! ## Association-list support lemmas -/
omit [Inhabited α] in
theorem findQ_decomp (qs : List (Nat × WQueue α)) (qid : Nat) (q : WQueue α)
    (h : findQ qs qid = some q) :
    ∃ A B, qs = A ++ (qid, q) :: B ∧ (∀ x ∈ A, x.1 ≠ qid) := by
  induction qs with
  | nil => simp [findQ] at h
  | cons p rest ih =>
    by_cases hp : p.1 = qid
    · have he : findQ (p :: rest) qid = some p.2 := by
        simp [findQ, List.find?_cons_of_pos, hp]
      rw [he] at h
      cases h
      refine ⟨[], rest, ?_, by simp⟩
      simp only [List.nil_append]
      rw [show (qid, p.2) = p from by rw [← hp]]
    · have he : findQ (p :: rest) qid = findQ rest qid := by
        simp only [findQ, List.find?]
        rw [show (p.1 == qid) = false from beq_eq_false_iff_ne.mpr hp]
      rw [he] at h
      obtain ⟨A, B, h1, h2⟩ := ih h
      refine ⟨p :: A, B, by rw [h1]; rfl, ?_⟩
      intro x hx
      rcases List.mem_cons.mp hx with rfl | hx
      · exact hp
      · exact h2 x hx

omit [Inhabited α] in
theorem decomp_right_ne {β : Type} (A B : List (Nat × β)) (k : Nat) (v : β)
    (hnd : ((A ++ (k, v) :: B).map (·.1)).Nodup) : ∀ x ∈ B, x.1 ≠ k := by
  intro x hx hxk
  rw [List.map_append, List.nodup_append] at hnd
  obtain ⟨_, hnd2, _⟩ := hnd
  rw [List.map_cons, List.nodup_cons] at hnd2
  exact hnd2.1 (hxk ▸ List.mem_map_of_mem (·.1) hx)

omit [Inhabited α] in
theorem updQ_of_decomp (A B : List (Nat × WQueue α)) (qid : Nat)
    (q : WQueue α) (f : WQueue α → WQueue α)
    (hA : ∀ x ∈ A, x.1 ≠ qid) (hB : ∀ x ∈ B, x.1 ≠ qid) :
    updQ (A ++ (qid, q) :: B) qid f = A ++ (qid, f q) :: B := by
  simp only [updQ, List.map_append, List.map_cons, if_pos rfl]
  have eA : A.map (fun p => if p.1 = qid then (p.1, f p.2) else p) = A := by
    conv_rhs => rw [← List.map_id A]
    apply List.map_congr_left
    intro x hx
    simp [hA x hx]
  have eB : B.map (fun p => if p.1 = qid then (p.1, f p.2) else p) = B := by
    conv_rhs => rw [← List.map_id B]
    apply List.map_congr_left
    intro x hx
    simp [hB x hx]
  rw [eA, eB]
  simp

omit [Inhabited α] in
theorem findQ_updQ_ne (qs : List (Nat × WQueue α)) (qid q' : Nat)
    (f : WQueue α → WQueue α) (h : q' ≠ qid) :
    findQ (updQ qs qid f) q' = findQ qs q' := by
  induction qs with
  | nil => rfl
  | cons p rest ih =>
    show findQ ((if p.1 = qid then (p.1, f p.2) else p) :: updQ rest qid f) q'
      = _
    by_cases hp : p.1 = qid
    · rw [if_pos hp]
      have hne : (p.1 == q') = false := by
        rw [beq_eq_false_iff_ne]
        intro hx
        rw [hx] at hp
        exact h hp
      simp only [findQ, List.find?]
      rw [hne]
      exact ih
    · rw [if_neg hp]
      simp only [findQ, List.find?]
      cases hq : (p.1 == q') with
      | true => rfl
      | false => exact ih

omit [Inhabited α] in
theorem findQ_append_left (qs₁ qs₂ : List (Nat × WQueue α)) (qid : Nat)
    (q : WQueue α) (h : findQ qs₁ qid = some q) :
    findQ (qs₁ ++ qs₂) qid = some q := by
  induction qs₁ with
  | nil => simp [findQ] at h
  | cons p rest ih =>
    show findQ (p :: (rest ++ qs₂)) qid = some q
    simp only [findQ, List.find?] at h ⊢
    cases hp : (p.1 == qid) with
    | true => rw [hp] at h; exact h
    | false => rw [hp] at h; exact ih h

omit [Inhabited α] in
theorem findQ_append_new (qs : List (Nat × WQueue α)) (qid : Nat)
    (q : WQueue α) (h : ∀ x ∈ qs, x.1 ≠ qid) :
    findQ (qs ++ [(qid, q)]) qid = some q := by
  induction qs with
  | nil => simp [findQ]
  | cons p rest ih =>
    show findQ (p :: (rest ++ [(qid, q)])) qid = some q
    simp only [findQ, List.find?]
    rw [show (p.1 == qid) = false from
      beq_eq_false_iff_ne.mpr (h p (List.mem_cons_self p rest))]
    exact ih (fun x hx => h x (List.mem_cons_of_mem p hx))

omit [Inhabited α] in
theorem findQ_filter_ne (qs : List (Nat × WQueue α)) (qid q' : Nat)
    (h : q' ≠ qid) :
    findQ (qs.filter (fun p => decide (p.1 ≠ qid))) q' = findQ qs q' := by
  induction qs with
  | nil => rfl
  | cons p rest ih =>
    by_cases hp : p.1 = qid
    · rw [List.filter_cons_of_neg (by simp [hp])]
      have hne : (p.1 == q') = false := by
        rw [beq_eq_false_iff_ne]
        intro hx
        rw [hx] at hp
        exact h hp
      simp only [findQ, List.find?]
      rw [hne]
      exact ih
    · rw [List.filter_cons_of_pos (by simp [hp])]
      simp only [findQ, List.find?]
      cases hq : (p.1 == q') with
      | true => rfl
      | false => exact ih

theorem bump_map_fst (cs : List (Nat × Int)) (n : Nat) (d : Int) :
    (bump cs n d).map (·.1) = cs.map (·.1) := by
  simp only [bump, List.map_map]
  apply List.map_congr_left
  intro p _
  by_cases hp : p.1 = n <;> simp [hp]

theorem mem_bump_of_mem (cs : List (Nat × Int)) (n : Nat) (d : Int)
    (m : Nat) (c : Int) (h : (m, c) ∈ cs) :
    (m, if m = n then c + d else c) ∈ bump cs n d := by
  refine List.mem_map.mpr ⟨(m, c), h, ?_⟩
  by_cases hm : m = n <;> simp [hm]

theorem mem_bump_inv (cs : List (Nat × Int)) (n : Nat) (d : Int)
    (m : Nat) (c : Int) (h : (m, c) ∈ bump cs n d) :
    ∃ c₀, (m, c₀) ∈ cs ∧ c = if m = n then c₀ + d else c₀ := by
  obtain ⟨p₀, hp₀, he⟩ := List.mem_map.mp h
  by_cases hp : p₀.1 = n
  · rw [if_pos hp] at he
    have h1 : p₀.1 = m := congrArg Prod.fst he
    have h2 : p₀.2 + d = c := congrArg Prod.snd he
    refine ⟨p₀.2, by rw [← h1]; exact hp₀, ?_⟩
    rw [if_pos (h1 ▸ hp : m = n)]
    omega
  · rw [if_neg hp] at he
    subst he
    exact ⟨c, hp₀, by rw [if_neg hp]⟩

theorem bumpAll_map_fst {α : Type} (slots : List (Nat × α)) :
    ∀ cs, (bumpAll cs slots).map (·.1) = cs.map (·.1) := by
  induction slots with
  | nil => intro cs; rfl
  | cons s rest ih =>
    intro cs
    show (bumpAll (bump cs s.1 1) rest).map (·.1) = _
    rw [ih, bump_map_fst]

theorem bumpAll_mem_inv {α : Type} (slots : List (Nat × α)) :
    ∀ cs (m : Nat) (c : Int), (m, c) ∈ bumpAll cs slots →
      ∃ c₀, (m, c₀) ∈ cs ∧ c = c₀ + ((slots.map (·.1)).count m : Int) := by
  induction slots with
  | nil =>
    intro cs m c h
    exact ⟨c, h, by simp⟩
  | cons s rest ih =>
    intro cs m c h
    obtain ⟨c₁, hc₁, he₁⟩ := ih (bump cs s.1 1) m c h
    obtain ⟨c₀, hc₀, he₀⟩ := mem_bump_inv cs s.1 1 m c₁ hc₁
    refine ⟨c₀, hc₀, ?_⟩
    have hcnt : ((s :: rest).map (·.1)).count m
        = (rest.map (·.1)).count m + (if m = s.1 then 1 else 0) := by
      rw [List.map_cons, List.count_cons]
      by_cases hm : m = s.1
      · rw [if_pos hm, show (s.1 == m) = true from beq_iff_eq.mpr hm.symm,
          if_pos rfl]
      · rw [if_neg hm, show (s.1 == m) = false from
          beq_eq_false_iff_ne.mpr (fun hx => hm hx.symm)]
        simp
    by_cases hm : m = s.1
    · rw [if_pos hm] at he₀
      rw [hcnt, if_pos hm]
      push_cast
      omega
    · rw [if_neg hm] at he₀
      rw [hcnt, if_neg hm]
      push_cast
      omega

theorem lookupC_eq_of_mem (cs : List (Nat × Int)) (m : Nat) (c : Int)
    (hnd : (cs.map (·.1)).Nodup) (h : (m, c) ∈ cs) :
    lookupC cs m = some c := by
  induction cs with
  | nil => simp at h
  | cons p rest ih =>
    rw [List.map_cons, List.nodup_cons] at hnd
    rcases List.mem_cons.mp h with rfl | hm
    · simp [lookupC, List.find?_cons_of_pos]
    · have hne : p.1 ≠ m := by
        intro hx
        exact hnd.1 (hx ▸ List.mem_map_of_mem (·.1) hm)
      simp only [lookupC, List.find?]
      rw [show (p.1 == m) = false from beq_eq_false_iff_ne.mpr hne]
      exact ih hnd.2 hm

theorem lookupC_mem_keys (cs : List (Nat × Int)) (m : Nat) (c : Int)
    (h : lookupC cs m = some c) : m ∈ cs.map (·.1) := by
  simp only [lookupC, Option.map_eq_some'] at h
  obtain ⟨p, hp, _⟩ := h
  have h1 := List.mem_of_find?_eq_some hp
  have h2 := List.find?_some hp
  rw [beq_iff_eq] at h2
  exact h2 ▸ List.mem_map_of_mem (·.1) h1

/-! ## Properties of the `pq_destroy` release loop -/
omit [Inhabited α] in
theorem count_map_fst_cons {β : Type} (s : Nat × β) (rest : List (Nat × β))
    (m : Nat) :
    ((s :: rest).map (·.1)).count m
      = (rest.map (·.1)).count m + (if m = s.1 then 1 else 0) := by
  rw [List.map_cons, List.count_cons]
  by_cases hm : m = s.1
  · rw [if_pos hm, show (s.1 == m) = true from beq_iff_eq.mpr hm.symm,
      if_pos rfl]
  · rw [if_neg hm, show (s.1 == m) = false from
      beq_eq_false_iff_ne.mpr (fun hx => hm hx.symm)]
    simp

omit [Inhabited α] in
theorem releaseSlots_keys_sublist {β : Type} (slots : List (Nat × β)) :
    ∀ cs, ((releaseSlots cs slots).1.map (·.1)).Sublist (cs.map (·.1)) := by
  induction slots with
  | nil => intro cs; exact List.Sublist.refl _
  | cons s rest ih =>
    intro cs
    simp only [releaseSlots]
    have hkeys : ((bump cs s.1 (-1)).map (·.1)) = cs.map (·.1) :=
      bump_map_fst ..
    split
    case isTrue h =>
      have h1 : (((bump cs s.1 (-1)).filter
          (fun p => decide (p.1 ≠ s.1))).map (·.1)).Sublist
          ((bump cs s.1 (-1)).map (·.1)) :=
        (List.filter_sublist _).map _
      exact (ih _).trans (hkeys ▸ h1)
    case isFalse h =>
      exact hkeys ▸ ih _

omit [Inhabited α] in
theorem releaseSlots_mem_inv {β : Type} (slots : List (Nat × β)) :
    ∀ cs (m : Nat) (c : Int), (m, c) ∈ (releaseSlots cs slots).1 →
      ∃ c₀, (m, c₀) ∈ cs ∧ c = c₀ - ((slots.map (·.1)).count m : Int) := by
  induction slots with
  | nil =>
    intro cs m c h
    exact ⟨c, h, by simp⟩
  | cons s rest ih =>
    intro cs m c h
    simp only [releaseSlots] at h
    split at h
    case isTrue hz =>
      obtain ⟨c₁, hc₁, he₁⟩ := ih _ m c h
      have hmne : m ≠ s.1 := by
        have := List.of_mem_filter hc₁
        simpa using this
      have hc₁' : (m, c₁) ∈ bump cs s.1 (-1) := List.mem_of_mem_filter hc₁
      obtain ⟨c₀, hc₀, he₀⟩ := mem_bump_inv _ _ _ _ _ hc₁'
      rw [if_neg hmne] at he₀
      refine ⟨c₀, hc₀, ?_⟩
      rw [count_map_fst_cons, if_neg hmne]
      push_cast
      omega
    case isFalse hz =>
      obtain ⟨c₁, hc₁, he₁⟩ := ih _ m c h
      obtain ⟨c₀, hc₀, he₀⟩ := mem_bump_inv _ _ _ _ _ hc₁
      refine ⟨c₀, hc₀, ?_⟩
      rw [count_map_fst_cons]
      by_cases hm : m = s.1
      · rw [if_pos hm] at he₀
        rw [if_pos hm]
        push_cast
        omega
      · rw [if_neg hm] at he₀
        rw [if_neg hm]
        push_cast
        omega

omit [Inhabited α] in
theorem releaseSlots_rel_sublist {β : Type} (slots : List (Nat × β)) :
    ∀ cs, (releaseSlots cs slots).2.Sublist slots := by
  induction slots with
  | nil => intro cs; exact List.Sublist.refl _
  | cons s rest ih =>
    intro cs
    simp only [releaseSlots]
    split
    case isTrue h => exact (ih _).cons₂ s
    case isFalse h => exact (ih _).cons s

omit [Inhabited α] in
theorem releaseSlots_rel_not_mem {β : Type} (slots : List (Nat × β)) :
    ∀ cs (m : Nat), m ∉ cs.map (·.1) →
      ((releaseSlots cs slots).2.map (·.1)).count m = 0 := by
  induction slots with
  | nil => intro cs m _; rfl
  | cons s rest ih =>
    intro cs m hm
    simp only [releaseSlots]
    have hkeys : ((bump cs s.1 (-1)).map (·.1)) = cs.map (·.1) :=
      bump_map_fst ..
    split
    case isTrue hz =>
      have hs : s.1 ∈ (bump cs s.1 (-1)).map (·.1) :=
        lookupC_mem_keys _ _ _ hz
      rw [hkeys] at hs
      have hne : m ≠ s.1 := fun hx => hm (hx ▸ hs)
      rw [count_map_fst_cons, if_neg hne]
      have hsub : (((bump cs s.1 (-1)).filter
          (fun p => decide (p.1 ≠ s.1))).map (fun x : Nat × Int => x.1)).Sublist
          ((bump cs s.1 (-1)).map (fun x : Nat × Int => x.1)) :=
        List.Sublist.map _ (List.filter_sublist _)
      have hnotin : m ∉ ((bump cs s.1 (-1)).filter
          (fun p => decide (p.1 ≠ s.1))).map (·.1) := by
        intro hx
        exact hm (hkeys ▸ hsub.mem hx)
      rw [ih _ m hnotin]
    case isFalse hz =>
      exact ih _ m (hkeys ▸ hm)

omit [Inhabited α] in
theorem releaseSlots_survive {β : Type} (slots : List (Nat × β)) :
    ∀ cs (m : Nat) (c₀ : Int), (cs.map (·.1)).Nodup → (m, c₀) ∈ cs →
      ((slots.map (·.1)).count m : Int) < c₀ →
      (m, c₀ - ((slots.map (·.1)).count m : Int))
        ∈ (releaseSlots cs slots).1 := by
  induction slots with
  | nil =>
    intro cs m c₀ _ hmem _
    simpa using hmem
  | cons s rest ih =>
    intro cs m c₀ hnd hmem hlt
    have hnd1 : ((bump cs s.1 (-1)).map (·.1)).Nodup := by
      rw [bump_map_fst]; exact hnd
    simp only [releaseSlots]
    by_cases hm : m = s.1
    · subst hm
      have hmem1 : (s.1, c₀ - 1) ∈ bump cs s.1 (-1) := by
        have := mem_bump_of_mem cs s.1 (-1) s.1 c₀ hmem
        rw [if_pos rfl] at this
        have he : c₀ + (-1) = c₀ - 1 := by omega
        rwa [he] at this
      rw [count_map_fst_cons, if_pos rfl] at hlt
      have hlook : lookupC (bump cs s.1 (-1)) s.1 = some (c₀ - 1) :=
        lookupC_eq_of_mem _ _ _ hnd1 hmem1
      have hzf : ¬ (lookupC (bump cs s.1 (-1)) s.1 = some 0) := by
        rw [hlook]
        intro hx
        have := Option.some.inj hx
        push_cast at hlt
        omega
      rw [if_neg hzf]
      have hrec := ih (bump cs s.1 (-1)) s.1 (c₀ - 1) hnd1 hmem1
        (by push_cast at hlt ⊢; omega)
      have harith : c₀ - ((((s :: rest).map (·.1)).count s.1 : Int))
          = (c₀ - 1) - (((rest.map (·.1)).count s.1 : Int)) := by
        rw [count_map_fst_cons, if_pos rfl]
        push_cast
        omega
      rw [harith]
      exact hrec
    · have hmem1 : (m, c₀) ∈ bump cs s.1 (-1) := by
        have := mem_bump_of_mem cs s.1 (-1) m c₀ hmem
        rwa [if_neg hm] at this
      have harith : c₀ - ((((s :: rest).map (·.1)).count m : Int))
          = c₀ - (((rest.map (·.1)).count m : Int)) := by
        rw [count_map_fst_cons, if_neg hm]
        push_cast
        omega
      have hlt2 : (((rest.map (·.1)).count m : Int)) < c₀ := by
        rw [count_map_fst_cons, if_neg hm] at hlt
        push_cast at hlt ⊢
        omega
      rw [harith]
      split
      next hz =>
        have hmem2 : (m, c₀) ∈ (bump cs s.1 (-1)).filter
            (fun p => decide (p.1 ≠ s.1)) :=
          List.mem_filter.mpr ⟨hmem1, by simpa using hm⟩
        have hsub : (((bump cs s.1 (-1)).filter
            (fun p => decide (p.1 ≠ s.1))).map
              (fun x : Nat × Int => x.1)).Sublist
            ((bump cs s.1 (-1)).map (fun x : Nat × Int => x.1)) :=
          List.Sublist.map _ (List.filter_sublist _)
        have hnd2 : (((bump cs s.1 (-1)).filter
            (fun p => decide (p.1 ≠ s.1))).map (·.1)).Nodup :=
          hnd1.sublist hsub
        exact ih _ m c₀ hnd2 hmem2 hlt2
      next hz =>
        exact ih _ m c₀ hnd1 hmem1 hlt2

omit [Inhabited α] in
theorem releaseSlots_rel_count {β : Type} (slots : List (Nat × β)) :
    ∀ cs (m : Nat) (c₀ : Int), (cs.map (·.1)).Nodup → (m, c₀) ∈ cs →
      0 < c₀ → ((slots.map (·.1)).count m : Int) ≤ c₀ →
      ((releaseSlots cs slots).2.map (·.1)).count m
        = if c₀ = ((slots.map (·.1)).count m : Int) then 1 else 0 := by
  induction slots with
  | nil =>
    intro cs m c₀ _ _ hpos _
    rw [if_neg (by simp only [List.map_nil, List.count_nil]; push_cast; omega)]
    rfl
  | cons s rest ih =>
    intro cs m c₀ hnd hmem hpos hle
    have hnd1 : ((bump cs s.1 (-1)).map (·.1)).Nodup := by
      rw [bump_map_fst]; exact hnd
    simp only [releaseSlots]
    by_cases hm : m = s.1
    · subst hm
      have hmem1 : (s.1, c₀ - 1) ∈ bump cs s.1 (-1) := by
        have := mem_bump_of_mem cs s.1 (-1) s.1 c₀ hmem
        rw [if_pos rfl] at this
        have he : c₀ + (-1) = c₀ - 1 := by omega
        rwa [he] at this
      have hlook : lookupC (bump cs s.1 (-1)) s.1 = some (c₀ - 1) :=
        lookupC_eq_of_mem _ _ _ hnd1 hmem1
      rw [count_map_fst_cons, if_pos rfl] at hle
      by_cases hz : c₀ - 1 = 0
      · rw [if_pos (by rw [hlook, hz])]
        rw [count_map_fst_cons, if_pos rfl]
        have hnotin : s.1 ∉ ((bump cs s.1 (-1)).filter
            (fun p => decide (p.1 ≠ s.1))).map (·.1) := by
          intro hx
          obtain ⟨p, hp, hpe⟩ := List.mem_map.mp hx
          have := List.of_mem_filter hp
          simp only [decide_eq_true_eq] at this
          exact this hpe
        rw [releaseSlots_rel_not_mem rest _ s.1 hnotin]
        have hcond : c₀ = (((s :: rest).map (·.1)).count s.1 : Int) := by
          rw [count_map_fst_cons, if_pos rfl]
          push_cast at hle ⊢
          omega
        rw [if_pos hcond]
      · rw [if_neg (by rw [hlook]; intro hx; exact hz (Option.some.inj hx))]
        have hrec := ih (bump cs s.1 (-1)) s.1 (c₀ - 1) hnd1 hmem1
          (by omega) (by push_cast at hle ⊢; omega)
        rw [hrec, count_map_fst_cons, if_pos rfl]
        by_cases hcc : c₀ - 1 = ((rest.map (·.1)).count s.1 : Int)
        · rw [if_pos hcc, if_pos (by push_cast; omega)]
        · rw [if_neg hcc, if_neg (by push_cast at hcc ⊢; omega)]
    · have hmem1 : (m, c₀) ∈ bump cs s.1 (-1) := by
        have := mem_bump_of_mem cs s.1 (-1) m c₀ hmem
        rwa [if_neg hm] at this
      have hle2 : ((rest.map (·.1)).count m : Int) ≤ c₀ := by
        rw [count_map_fst_cons, if_neg hm] at hle
        push_cast at hle ⊢
        omega
      have hcnt : (((s :: rest).map (·.1)).count m : Int)
          = ((rest.map (·.1)).count m : Int) := by
        rw [count_map_fst_cons, if_neg hm]
        push_cast
        omega
      rw [hcnt]
      split
      next hz =>
        have hmem2 : (m, c₀) ∈ (bump cs s.1 (-1)).filter
            (fun p => decide (p.1 ≠ s.1)) :=
          List.mem_filter.mpr ⟨hmem1, by simpa using hm⟩
        have hsub : (((bump cs s.1 (-1)).filter
            (fun p => decide (p.1 ≠ s.1))).map
              (fun x : Nat × Int => x.1)).Sublist
            ((bump cs s.1 (-1)).map (fun x : Nat × Int => x.1)) :=
          List.Sublist.map _ (List.filter_sublist _)
        have hnd2 : (((bump cs s.1 (-1)).filter
            (fun p => decide (p.1 ≠ s.1))).map (·.1)).Nodup :=
          hnd1.sublist hsub
        rw [count_map_fst_cons, if_neg hm]
        simp only [Nat.add_zero]
        exact ih _ m c₀ hnd2 hmem2 hpos hle2
      next hz =>
        exact ih _ m c₀ hnd1 hmem1 hpos hle2

/-! ## Preservation of well-formedness by every API call -/
omit [Inhabited α] in
theorem updQ_map_fst (qs : List (Nat × WQueue α)) (qid : Nat)
    (f : WQueue α → WQueue α) :
    (updQ qs qid f).map (·.1) = qs.map (·.1) := by
  simp only [updQ, List.map_map]
  apply List.map_congr_left
  intro p _
  by_cases hp : p.1 = qid <;> simp [hp]

omit [Inhabited α] in
theorem sum_occ_decomp (A B : List (Nat × WQueue α)) (e : Nat × WQueue α)
    (n : Nat) :
    (((A ++ e :: B).map (fun p => occQ p.2 n)).sum : Int)
      = ((A.map (fun p => occQ p.2 n)).sum : Int) + (occQ e.2 n : Int)
        + ((B.map (fun p => occQ p.2 n)).sum : Int) := by
  rw [List.map_append, List.sum_append, List.map_cons, List.sum_cons]
  push_cast
  omega

theorem mem_keys_entry (cs : List (Nat × Int)) (n : Nat)
    (h : n ∈ cs.map (·.1)) : ∃ c, (n, c) ∈ cs := by
  obtain ⟨p, hp, he⟩ := List.mem_map.mp h
  exact ⟨p.2, by rw [show (n, p.2) = p from by rw [← he]]; exact hp⟩

omit [Inhabited α] in
theorem occQ_eq_zero_of_fresh (q : WQueue α) (n : Nat)
    (h : ∀ s ∈ q.slots, s.1 < n) : occQ q n = 0 := by
  rw [occQ, List.count_eq_zero]
  intro hmem
  obtain ⟨s, hs, he⟩ := List.mem_map.mp hmem
  exact absurd (he ▸ h s hs) (lt_irrefl n)

omit [Inhabited α] in
/-- `pq_create` preserves well-formedness. -/
theorem wf_create (w : World α) (hw : WF w) (size : Nat)
    (cmp : α → α → Int) : WF (createW w size cmp) := by
  have hocc : ∀ n, occW (createW w size cmp) n = occW w n := by
    intro n
    show ((w.queues ++ [(w.nextQueue, (⟨size, cmp, []⟩ : WQueue α))]).map
      (fun p => occQ p.2 n)).sum = _
    rw [List.map_append, List.sum_append]
    simp [occQ, ids, occW]
  refine ⟨?_, ?_, ?_, ?_, ?_, ?_, ?_, ?_⟩
  · intro p hp
    rw [hocc]
    exact hw.countOcc p hp
  · intro p hp
    rcases List.mem_append.mp hp with hp | hp
    · exact hw.qNodup p hp
    · simp only [List.mem_singleton] at hp
      subst hp
      simp [ids]
  · exact hw.keysNodup
  · show ((w.queues ++ [(w.nextQueue, (⟨size, cmp, []⟩ : WQueue α))]).map
      (·.1)).Nodup
    rw [List.map_append, List.nodup_append]
    refine ⟨hw.qidNodup, by simp, ?_⟩
    intro a ha
    simp only [List.map_cons, List.map_nil, List.mem_singleton]
    obtain ⟨p, hp, he⟩ := List.mem_map.mp ha
    intro hx
    exact absurd (hx ▸ he ▸ hw.qidFresh p hp) (lt_irrefl _)
  · exact hw.nodeFresh
  · intro p hp s hs
    rcases List.mem_append.mp hp with hp | hp
    · exact hw.slotFresh p hp s hs
    · simp only [List.mem_singleton] at hp
      subst hp
      simp at hs
  · intro p hp
    rcases List.mem_append.mp hp with hp | hp
    · exact Nat.lt_succ_of_lt (hw.qidFresh p hp)
    · simp only [List.mem_singleton] at hp
      subst hp
      exact Nat.lt_succ_self _
  · intro p hp s hs
    rcases List.mem_append.mp hp with hp | hp
    · exact hw.slotKeys p hp s hs
    · simp only [List.mem_singleton] at hp
      subst hp
      simp at hs

/-- `pq_insert` preserves well-formedness. -/
theorem wf_insert (w : World α) (hw : WF w) (qid : Nat) (v : α)
    (w' : World α) (h : insertW w qid v = some w') : WF w' := by
  cases hfind : findQ w.queues qid with
  | none =>
    simp only [insertW, hfind] at h
    cases h
  | some q =>
    simp only [insertW, hfind] at h
    by_cases hcap : q.slots.length + 1 > q.size
    · rw [if_pos hcap] at h; cases h
    · rw [if_neg hcap] at h
      cases h
      obtain ⟨A, B, hdec, hA⟩ := findQ_decomp w.queues qid q hfind
      have hB : ∀ x ∈ B, x.1 ≠ qid := by
        have := hw.qidNodup
        rw [hdec] at this
        exact decomp_right_ne A B qid q this
      set nN := w.nextNode with hnN
      set q' : WQueue α := { q with
        slots := sift_up (cmpN q) (q.slots ++ [(nN, v)])
          (nN, v) q.slots.length } with hq'
      have hupd : updQ w.queues qid (fun qq => { qq with
          slots := sift_up (cmpN qq) (qq.slots ++ [(nN, v)])
            (nN, v) qq.slots.length }) = A ++ (qid, q') :: B := by
        rw [hdec]
        exact updQ_of_decomp A B qid q _ hA hB
      set w2 : World α := ⟨nN + 1, w.nextQueue, (nN, 1) :: w.counts,
        updQ w.queues qid (fun qq => { qq with
          slots := sift_up (cmpN qq) (qq.slots ++ [(nN, v)])
            (nN, v) qq.slots.length })⟩ with hw2
      have hcounts2 : w2.counts = (nN, 1) :: w.counts := rfl
      have hqueues2 : w2.queues = A ++ (qid, q') :: B := hupd
      have hperm : q'.slots.Perm (q.slots ++ [(nN, v)]) :=
        sift_up_perm (cmpN q) (q.slots ++ [(nN, v)]) (nN, v)
          q.slots.length (by simp)
      have hidperm : (ids q').Perm (ids q ++ [nN]) := by
        have := hperm.map (·.1)
        simpa [ids] using this
      have hmemq : (qid, q) ∈ w.queues := by
        rw [hdec]; exact List.mem_append_right A (List.mem_cons_self _ _)
      have hfreshq : ∀ x ∈ w.queues, occQ x.2 nN = 0 := fun x hx =>
        occQ_eq_zero_of_fresh x.2 nN (fun s hs => hw.slotFresh x hx s hs)
      have hcount' : ∀ n, (occQ q' n : Int)
          = (occQ q n : Int) + (if n = nN then 1 else 0) := by
        intro n
        rw [occQ, occQ, hidperm.count_eq, List.count_append]
        by_cases hn : n = nN
        · rw [if_pos hn, hn]
          simp
        · rw [if_neg hn]
          have : List.count n [nN] = 0 := by
            simp [List.count_singleton]
            exact fun hx => hn hx.symm
          rw [this]
          push_cast
          omega
      have hoccW : ∀ n, (occW w2 n : Int)
          = (occW w n : Int) + (if n = nN then 1 else 0) := by
        intro n
        have hWn : (occW w n : Int)
            = ((A.map (fun p => occQ p.2 n)).sum : Int) + (occQ q n : Int)
              + ((B.map (fun p => occQ p.2 n)).sum : Int) := by
          show ((w.queues.map (fun p => occQ p.2 n)).sum : Int) = _
          rw [hdec]
          exact sum_occ_decomp ..
        show ((w2.queues.map (fun p => occQ p.2 n)).sum : Int) = _
        rw [hqueues2, sum_occ_decomp, hWn]
        have hq2 : occQ (qid, q').2 n = occQ q' n := rfl
        rw [hq2, hcount' n]
        omega
      refine ⟨?_, ?_, ?_, ?_, ?_, ?_, ?_, ?_⟩
      · intro p hp
        rw [hcounts2] at hp
        rcases List.mem_cons.mp hp with rfl | hp
        · show (1 : Int) = (occW w2 nN : Int)
          rw [hoccW, if_pos rfl]
          have : (occW w nN : Int) = 0 := by
            show ((w.queues.map (fun p => occQ p.2 nN)).sum : Int) = 0
            have hz : ∀ x ∈ w.queues.map (fun p => occQ p.2 nN), x = 0 := by
              intro x hx
              obtain ⟨p, hp, he⟩ := List.mem_map.mp hx
              rw [← he, hfreshq p hp]
            rw [List.sum_eq_zero hz]
            rfl
          omega
        · have hlt : p.1 < nN := hw.nodeFresh p hp
          rw [hoccW, if_neg (by omega), ← hw.countOcc p hp]
          omega
      · intro p hp
        rw [hqueues2] at hp
        rcases List.mem_append.mp hp with hp | hp
        · exact hw.qNodup p (by rw [hdec]; exact List.mem_append_left _ hp)
        · rcases List.mem_cons.mp hp with rfl | hp
          · refine hidperm.symm.nodup ?_
            rw [List.nodup_append]
            refine ⟨hw.qNodup (qid, q) hmemq, by simp, ?_⟩
            intro a ha
            simp only [List.mem_singleton]
            intro hx
            subst hx
            have := hfreshq (qid, q) hmemq
            rw [occQ, List.count_eq_zero] at this
            exact this ha
          · exact hw.qNodup p
              (by rw [hdec]
                  exact List.mem_append_right A (List.mem_cons_of_mem _ hp))
      · show ((((nN, 1) :: w.counts).map (·.1)).Nodup)
        rw [List.map_cons, List.nodup_cons]
        refine ⟨?_, hw.keysNodup⟩
        intro hx
        obtain ⟨p, hp, he⟩ := List.mem_map.mp hx
        exact absurd (he ▸ hw.nodeFresh p hp) (lt_irrefl _)
      · rw [hqueues2]
        have h2 : ((A ++ (qid, q') :: B).map (·.1))
            = ((A ++ (qid, q) :: B).map (·.1)) := by
          simp [List.map_append]
        rw [h2, ← hdec]
        exact hw.qidNodup
      · intro p hp
        rw [hcounts2] at hp
        rcases List.mem_cons.mp hp with rfl | hp
        · exact Nat.lt_succ_self _
        · exact Nat.lt_succ_of_lt (hw.nodeFresh p hp)
      · intro p hp s hs
        rw [hqueues2] at hp
        rcases List.mem_append.mp hp with hp | hp
        · exact Nat.lt_succ_of_lt (hw.slotFresh p
            (by rw [hdec]; exact List.mem_append_left _ hp) s hs)
        · rcases List.mem_cons.mp hp with rfl | hp
          · have : s ∈ q.slots ++ [(nN, v)] := hperm.mem_iff.mp hs
            rcases List.mem_append.mp this with hs' | hs'
            · exact Nat.lt_succ_of_lt (hw.slotFresh (qid, q) hmemq s hs')
            · simp only [List.mem_singleton] at hs'
              subst hs'
              exact Nat.lt_succ_self _
          · exact Nat.lt_succ_of_lt (hw.slotFresh p
              (by rw [hdec]
                  exact List.mem_append_right A (List.mem_cons_of_mem _ hp))
              s hs)
      · intro p hp
        rw [hqueues2] at hp
        rcases List.mem_append.mp hp with hp | hp
        · exact hw.qidFresh p (by rw [hdec]; exact List.mem_append_left _ hp)
        · rcases List.mem_cons.mp hp with rfl | hp
          · exact hw.qidFresh (qid, q) hmemq
          · exact hw.qidFresh p
              (by rw [hdec]
                  exact List.mem_append_right A (List.mem_cons_of_mem _ hp))
      · intro p hp s hs
        rw [hqueues2] at hp
        have hsup : s.1 ∈ w.counts.map (·.1) →
            s.1 ∈ (((nN, 1) :: w.counts).map (·.1)) := by
          intro hx
          rw [List.map_cons]
          exact List.mem_cons_of_mem _ hx
        rcases List.mem_append.mp hp with hp | hp
        · exact hsup (hw.slotKeys p
            (by rw [hdec]; exact List.mem_append_left _ hp) s hs)
        · rcases List.mem_cons.mp hp with rfl | hp
          · have : s ∈ q.slots ++ [(nN, v)] := hperm.mem_iff.mp hs
            rcases List.mem_append.mp this with hs' | hs'
            · exact hsup (hw.slotKeys (qid, q) hmemq s hs')
            · simp only [List.mem_singleton] at hs'
              subst hs'
              simp
          · exact hsup (hw.slotKeys p
              (by rw [hdec]
                  exact List.mem_append_right A (List.mem_cons_of_mem _ hp))
              s hs)

omit [Inhabited α] in
/-- `pq_copy` preserves well-formedness. -/
theorem wf_copy (w : World α) (hw : WF w) (qid : Nat) (w' : World α)
    (h : copyW w qid = some w') : WF w' := by
  cases hfind : findQ w.queues qid with
  | none =>
    simp only [copyW, hfind] at h
    cases h
  | some q =>
    simp only [copyW, hfind] at h
    cases h
    obtain ⟨A, B, hdec, hA⟩ := findQ_decomp w.queues qid q hfind
    have hmemq : (qid, q) ∈ w.queues := by
      rw [hdec]; exact List.mem_append_right A (List.mem_cons_self _ _)
    set nQ := w.nextQueue with hnQ
    set qc : WQueue α := ⟨q.size, q.compare, q.slots⟩ with hqc
    set w2 : World α := ⟨w.nextNode, nQ + 1, bumpAll w.counts q.slots,
      w.queues ++ [(nQ, qc)]⟩ with hw2
    have hcounts2 : w2.counts = bumpAll w.counts q.slots := rfl
    have hqueues2 : w2.queues = w.queues ++ [(nQ, qc)] := rfl
    have hoccq : ∀ n, occQ qc n = occQ q n := fun n => rfl
    have hoccW : ∀ n, occW w2 n = occW w n + occQ q n := by
      intro n
      show ((w2.queues.map (fun p => occQ p.2 n)).sum) = _
      rw [hqueues2, List.map_append, List.sum_append]
      have e1 : ([(nQ, qc)].map (fun p => occQ p.2 n)).sum = occQ q n := by
        simp [hoccq]
      rw [e1]
      rfl
    refine ⟨?_, ?_, ?_, ?_, ?_, ?_, ?_, ?_⟩
    · intro p hp
      rw [hcounts2] at hp
      obtain ⟨c₀, hc₀, he⟩ := bumpAll_mem_inv q.slots w.counts p.1 p.2 hp
      have hcc : c₀ = (occW w p.1 : Int) := hw.countOcc (p.1, c₀) hc₀
      rw [hoccW]
      have hqe : (q.slots.map (·.1)).count p.1 = occQ q p.1 := rfl
      rw [hqe] at he
      push_cast
      omega
    · intro p hp
      rw [hqueues2] at hp
      rcases List.mem_append.mp hp with hp | hp
      · exact hw.qNodup p hp
      · simp only [List.mem_singleton] at hp
        subst hp
        exact hw.qNodup (qid, q) hmemq
    · show ((bumpAll w.counts q.slots).map (·.1)).Nodup
      rw [bumpAll_map_fst]
      exact hw.keysNodup
    · show ((w.queues ++ [(nQ, qc)]).map (·.1)).Nodup
      rw [List.map_append, List.nodup_append]
      refine ⟨hw.qidNodup, by simp, ?_⟩
      intro a ha
      simp only [List.map_cons, List.map_nil, List.mem_singleton]
      obtain ⟨p, hp, he⟩ := List.mem_map.mp ha
      intro hx
      exact absurd (hx ▸ he ▸ hw.qidFresh p hp) (lt_irrefl _)
    · intro p hp
      rw [hcounts2] at hp
      obtain ⟨c₀, hc₀, _⟩ := bumpAll_mem_inv q.slots w.counts p.1 p.2 hp
      exact hw.nodeFresh (p.1, c₀) hc₀
    · intro p hp s hs
      rw [hqueues2] at hp
      rcases List.mem_append.mp hp with hp | hp
      · exact hw.slotFresh p hp s hs
      · simp only [List.mem_singleton] at hp
        subst hp
        exact hw.slotFresh (qid, q) hmemq s hs
    · intro p hp
      rw [hqueues2] at hp
      rcases List.mem_append.mp hp with hp | hp
      · exact Nat.lt_succ_of_lt (hw.qidFresh p hp)
      · simp only [List.mem_singleton] at hp
        subst hp
        exact Nat.lt_succ_self _
    · intro p hp s hs
      rw [hqueues2] at hp
      have hkeys : w2.counts.map (·.1) = w.counts.map (·.1) := by
        rw [hcounts2, bumpAll_map_fst]
      rw [hkeys]
      rcases List.mem_append.mp hp with hp | hp
      · exact hw.slotKeys p hp s hs
      · simp only [List.mem_singleton] at hp
        subst hp
        exact hw.slotKeys (qid, q) hmemq s hs

/-- `pq_remove` preserves well-formedness. -/
theorem wf_remove (w : World α) (hw : WF w) (qid : Nat) (w' : World α)
    (h : removeW w qid = some w') : WF w' := by
  cases hfind : findQ w.queues qid with
  | none =>
    simp only [removeW, hfind] at h
    cases h
  | some q =>
    simp only [removeW, hfind] at h
    cases hrem : removeList (cmpN q) q.slots with
    | none => rw [hrem] at h; cases h
    | some pr =>
      rw [hrem] at h
      obtain ⟨s, rest⟩ := pr
      cases h
      obtain ⟨hs0, hperm, hlen⟩ := removeList_spec (cmpN q) q.slots s rest hrem
      obtain ⟨A, B, hdec, hA⟩ := findQ_decomp w.queues qid q hfind
      have hB : ∀ x ∈ B, x.1 ≠ qid := by
        have := hw.qidNodup
        rw [hdec] at this
        exact decomp_right_ne A B qid q this
      have hmemq : (qid, q) ∈ w.queues := by
        rw [hdec]; exact List.mem_append_right A (List.mem_cons_self _ _)
      set q' : WQueue α := { q with slots := rest } with hq'
      have hupd : updQ w.queues qid (fun qq => { qq with slots := rest })
          = A ++ (qid, q') :: B := by
        rw [hdec]
        exact updQ_of_decomp A B qid q _ hA hB
      set w2 : World α := ⟨w.nextNode, w.nextQueue, bump w.counts s.1 (-1),
        updQ w.queues qid (fun qq => { qq with slots := rest })⟩ with hw2
      have hcounts2 : w2.counts = bump w.counts s.1 (-1) := rfl
      have hqueues2 : w2.queues = A ++ (qid, q') :: B := hupd
      have hidperm : ((s :: rest).map (·.1)).Perm (ids q) := by
        have := hperm.map (·.1)
        simpa [ids] using this
      have hcnt : ∀ n, (occQ q n : Int)
          = (occQ q' n : Int) + (if n = s.1 then 1 else 0) := by
        intro n
        have h1 : occQ q n = ((s :: rest).map (·.1)).count n := by
          rw [occQ, ← hidperm.count_eq]
        rw [h1, count_map_fst_cons]
        have h2 : (rest.map (·.1)).count n = occQ q' n := rfl
        rw [h2]
        by_cases hn : n = s.1
        · rw [if_pos hn, if_pos hn]
          push_cast
          omega
        · rw [if_neg hn, if_neg hn]
          push_cast
          omega
      have hoccW : ∀ n, (occW w2 n : Int)
          = (occW w n : Int) - (if n = s.1 then 1 else 0) := by
        intro n
        have hWn : (occW w n : Int)
            = ((A.map (fun p => occQ p.2 n)).sum : Int) + (occQ q n : Int)
              + ((B.map (fun p => occQ p.2 n)).sum : Int) := by
          show ((w.queues.map (fun p => occQ p.2 n)).sum : Int) = _
          rw [hdec]
          exact sum_occ_decomp ..
        show ((w2.queues.map (fun p => occQ p.2 n)).sum : Int) = _
        rw [hqueues2, sum_occ_decomp, hWn]
        have hq2 : occQ (qid, q').2 n = occQ q' n := rfl
        rw [hq2, hcnt n]
        omega
      refine ⟨?_, ?_, ?_, ?_, ?_, ?_, ?_, ?_⟩
      · intro p hp
        rw [hcounts2] at hp
        obtain ⟨c₀, hc₀, he⟩ := mem_bump_inv w.counts s.1 (-1) p.1 p.2 hp
        have hc : c₀ = (occW w p.1 : Int) := hw.countOcc (p.1, c₀) hc₀
        rw [hoccW]
        by_cases hps : p.1 = s.1
        · rw [if_pos hps] at he ⊢
          omega
        · rw [if_neg hps] at he ⊢
          omega
      · intro p hp
        rw [hqueues2] at hp
        rcases List.mem_append.mp hp with hp | hp
        · exact hw.qNodup p (by rw [hdec]; exact List.mem_append_left _ hp)
        · rcases List.mem_cons.mp hp with rfl | hp
          · have hnd : (((s :: rest).map (·.1))).Nodup :=
              (hw.qNodup (qid, q) hmemq).perm hidperm.symm
            rw [List.map_cons, List.nodup_cons] at hnd
            exact hnd.2
          · exact hw.qNodup p
              (by rw [hdec]
                  exact List.mem_append_right A (List.mem_cons_of_mem _ hp))
      · show ((bump w.counts s.1 (-1)).map (·.1)).Nodup
        rw [bump_map_fst]
        exact hw.keysNodup
      · rw [hqueues2]
        have h2 : ((A ++ (qid, q') :: B).map (·.1))
            = ((A ++ (qid, q) :: B).map (·.1)) := by
          simp [List.map_append]
        rw [h2, ← hdec]
        exact hw.qidNodup
      · intro p hp
        rw [hcounts2] at hp
        obtain ⟨c₀, hc₀, _⟩ := mem_bump_inv w.counts s.1 (-1) p.1 p.2 hp
        exact hw.nodeFresh (p.1, c₀) hc₀
      · intro p hp t ht
        rw [hqueues2] at hp
        rcases List.mem_append.mp hp with hp | hp
        · exact hw.slotFresh p
            (by rw [hdec]; exact List.mem_append_left _ hp) t ht
        · rcases List.mem_cons.mp hp with rfl | hp
          · have : t ∈ q.slots :=
              hperm.mem_iff.mp (List.mem_cons_of_mem s ht)
            exact hw.slotFresh (qid, q) hmemq t this
          · exact hw.slotFresh p
              (by rw [hdec]
                  exact List.mem_append_right A (List.mem_cons_of_mem _ hp))
              t ht
      · intro p hp
        rw [hqueues2] at hp
        rcases List.mem_append.mp hp with hp | hp
        · exact hw.qidFresh p (by rw [hdec]; exact List.mem_append_left _ hp)
        · rcases List.mem_cons.mp hp with rfl | hp
          · exact hw.qidFresh (qid, q) hmemq
          · exact hw.qidFresh p
              (by rw [hdec]
                  exact List.mem_append_right A (List.mem_cons_of_mem _ hp))
      · intro p hp t ht
        rw [hqueues2] at hp
        have hkeys : w2.counts.map (·.1) = w.counts.map (·.1) := by
          rw [hcounts2, bump_map_fst]
        rw [hkeys]
        rcases List.mem_append.mp hp with hp | hp
        · exact hw.slotKeys p
            (by rw [hdec]; exact List.mem_append_left _ hp) t ht
        · rcases List.mem_cons.mp hp with rfl | hp
          · have : t ∈ q.slots :=
              hperm.mem_iff.mp (List.mem_cons_of_mem s ht)
            exact hw.slotKeys (qid, q) hmemq t this
          · exact hw.slotKeys p
              (by rw [hdec]
                  exact List.mem_append_right A (List.mem_cons_of_mem _ hp))
              t ht

omit [Inhabited α] in
/-- `pq_destroy` preserves well-formedness of the surviving world. -/
theorem wf_destroy (w : World α) (hw : WF w) (qid : Nat) (w' : World α)
    (rel : List (Nat × α)) (h : destroyW w qid = some (w', rel)) :
    WF w' := by
  cases hfind : findQ w.queues qid with
  | none =>
    simp only [destroyW, hfind] at h
    cases h
  | some q =>
    simp only [destroyW, hfind] at h
    cases h
    obtain ⟨A, B, hdec, hA⟩ := findQ_decomp w.queues qid q hfind
    have hB : ∀ x ∈ B, x.1 ≠ qid := by
      have := hw.qidNodup
      rw [hdec] at this
      exact decomp_right_ne A B qid q this
    have hmemq : (qid, q) ∈ w.queues := by
      rw [hdec]; exact List.mem_append_right A (List.mem_cons_self _ _)
    set w2 : World α := ⟨w.nextNode, w.nextQueue,
      (releaseSlots w.counts q.slots).1,
      w.queues.filter (fun p => decide (p.1 ≠ qid))⟩ with hw2
    have hcounts2 : w2.counts = (releaseSlots w.counts q.slots).1 := rfl
    have hfilter : w.queues.filter (fun p => decide (p.1 ≠ qid))
        = A ++ B := by
      rw [hdec, List.filter_append, List.filter_cons_of_neg (by simp)]
      rw [List.filter_eq_self.mpr (fun x hx => by simpa using hA x hx),
        List.filter_eq_self.mpr (fun x hx => by simpa using hB x hx)]
    have hqueues2 : w2.queues = A ++ B := hfilter
    have hmemW : ∀ x ∈ A ++ B, x ∈ w.queues := by
      intro x hx
      rw [hdec]
      rcases List.mem_append.mp hx with hx | hx
      · exact List.mem_append_left _ hx
      · exact List.mem_append_right A (List.mem_cons_of_mem _ hx)
    have hoccW : ∀ n, (occW w2 n : Int)
        = (occW w n : Int) - (occQ q n : Int) := by
      intro n
      have hWn : (occW w n : Int)
          = ((A.map (fun p => occQ p.2 n)).sum : Int) + (occQ q n : Int)
            + ((B.map (fun p => occQ p.2 n)).sum : Int) := by
        show ((w.queues.map (fun p => occQ p.2 n)).sum : Int) = _
        rw [hdec]
        exact sum_occ_decomp ..
      show ((w2.queues.map (fun p => occQ p.2 n)).sum : Int) = _
      rw [hqueues2, List.map_append, List.sum_append, hWn]
      push_cast
      omega
    refine ⟨?_, ?_, ?_, ?_, ?_, ?_, ?_, ?_⟩
    · intro p hp
      rw [hcounts2] at hp
      obtain ⟨c₀, hc₀, he⟩ := releaseSlots_mem_inv q.slots w.counts p.1 p.2 hp
      have hc : c₀ = (occW w p.1 : Int) := hw.countOcc (p.1, c₀) hc₀
      have hqe : (q.slots.map (·.1)).count p.1 = occQ q p.1 := rfl
      rw [hqe] at he
      rw [hoccW]
      omega
    · intro p hp
      rw [hqueues2] at hp
      exact hw.qNodup p (hmemW p hp)
    · show (((releaseSlots w.counts q.slots).1).map (·.1)).Nodup
      exact hw.keysNodup.sublist (releaseSlots_keys_sublist q.slots w.counts)
    · rw [hqueues2]
      have hsub : (A ++ B).Sublist (A ++ (qid, q) :: B) :=
        (List.sublist_cons_self (qid, q) B).append_left A
      exact hw.qidNodup.sublist (hdec ▸ hsub.map (·.1))
    · intro p hp
      rw [hcounts2] at hp
      obtain ⟨c₀, hc₀, _⟩ := releaseSlots_mem_inv q.slots w.counts p.1 p.2 hp
      exact hw.nodeFresh (p.1, c₀) hc₀
    · intro p hp t ht
      rw [hqueues2] at hp
      exact hw.slotFresh p (hmemW p hp) t ht
    · intro p hp
      rw [hqueues2] at hp
      exact hw.qidFresh p (hmemW p hp)
    · intro p hp t ht
      rw [hqueues2] at hp
      have hx : p ∈ w.queues := hmemW p hp
      obtain ⟨c₀, hc₀⟩ :=
        mem_keys_entry w.counts t.1 (hw.slotKeys p hx t ht)
      have hc : c₀ = (occW w t.1 : Int) := hw.countOcc (t.1, c₀) hc₀
      have hWn : occW w t.1
          = ((A.map (fun pp => occQ pp.2 t.1)).sum) + occQ q t.1
            + ((B.map (fun pp => occQ pp.2 t.1)).sum) := by
        show ((w.queues.map (fun pp => occQ pp.2 t.1)).sum) = _
        rw [hdec, List.map_append, List.sum_append, List.map_cons,
          List.sum_cons]
        have e : occQ (qid, q).2 t.1 = occQ q t.1 := rfl
        rw [e]
        omega
      have hocc1 : 1 ≤ occQ p.2 t.1 := by
        rw [occQ]
        refine List.count_pos_iff.mpr ?_
        exact List.mem_map_of_mem (·.1) ht
      have hple : occQ p.2 t.1
          ≤ ((A.map (fun pp => occQ pp.2 t.1)).sum)
            + ((B.map (fun pp => occQ pp.2 t.1)).sum) := by
        rcases List.mem_append.mp hp with hpa | hpb
        · have := List.single_le_sum
            (fun x (_ : x ∈ A.map (fun pp => occQ pp.2 t.1)) => Nat.zero_le x)
            (occQ p.2 t.1) (List.mem_map_of_mem (fun pp => occQ pp.2 t.1) hpa)
          omega
        · have := List.single_le_sum
            (fun x (_ : x ∈ B.map (fun pp => occQ pp.2 t.1)) => Nat.zero_le x)
            (occQ p.2 t.1) (List.mem_map_of_mem (fun pp => occQ pp.2 t.1) hpb)
          omega
      have hlt : ((q.slots.map (·.1)).count t.1 : Int) < c₀ := by
        have hqe : (q.slots.map (·.1)).count t.1 = occQ q t.1 := rfl
        rw [hqe, hc]
        omega
      have hsurv := releaseSlots_survive q.slots w.counts t.1 c₀
        hw.keysNodup hc₀ hlt
      rw [hcounts2]
      exact List.mem_map_of_mem (·.1) hsurv

omit [Inhabited α] in
/-- The initial world is well-formed. -/
theorem wf_w0 : WF (w0 α) := by
  refine ⟨?_, ?_, ?_, ?_, ?_, ?_, ?_, ?_⟩ <;>
    first
      | exact List.nodup_nil
      | (intro p hp; simp [w0] at hp)

/-- Every normally-returning API call preserves well-formedness. -/
theorem wf_wstep (w : World α) (hw : WF w) (op : WOp α) (w' : World α)
    (h : wstep w op = some w') : WF w' := by
  cases op with
  | create size cmp =>
    cases h
    exact wf_create w hw size cmp
  | insert qid v => exact wf_insert w hw qid v w' h
  | copy qid => exact wf_copy w hw qid w' h
  | remove qid => exact wf_remove w hw qid w' h
  | destroy qid =>
    simp only [wstep] at h
    cases hd : destroyW w qid with
    | none => rw [hd] at h; cases h
    | some pr =>
      rw [hd] at h
      cases h
      exact wf_destroy w hw qid pr.1 pr.2 hd

/-- Every normally-returning sequence of API calls preserves
well-formedness. -/
theorem wf_runW :
    ∀ (ops : List (WOp α)) (w w' : World α), WF w →
      runW w ops = some w' → WF w' := by
  intro ops
  induction ops with
  | nil =>
    intro w w' hw h
    cases h
    exact hw
  | cons op ops ih =>
    intro w w' hw h
    simp only [runW] at h
    cases hs : wstep w op with
    | none => rw [hs] at h; cases h
    | some wi =>
      rw [hs] at h
      exact ih wi w' (wf_wstep w hw op wi hs) h

omit [Inhabited α] in
theorem sum_occ_eq_countP (n : Nat) :
    ∀ (l : List (Nat × WQueue α)), (∀ p ∈ l, occQ p.2 n ≤ 1) →
      (l.map (fun p => occQ p.2 n)).sum
        = l.countP (fun p => decide (0 < occQ p.2 n)) := by
  intro l
  induction l with
  | nil => intro _; rfl
  | cons p rest ih =>
    intro h
    rw [List.map_cons, List.sum_cons, List.countP_cons,
      ih (fun x hx => h x (List.mem_cons_of_mem p hx))]
    have hp := h p (List.mem_cons_self p rest)
    interval_cases hocc : occQ p.2 n <;> simp [hocc] <;> omega

omit [Inhabited α] in
/-- In a well-formed world the total occupancy of a node equals the number
of distinct queues holding it, because no queue holds a node twice. -/
theorem occW_eq_holders (w : World α) (hw : WF w) (n : Nat) :
    occW w n = holders w n := by
  rw [occW, holders]
  apply sum_occ_eq_countP
  intro p hp
  rw [occQ]
  exact List.nodup_iff_count_le_one.mp (hw.qNodup p hp) n

theorem bump_bump (cs : List (Nat × Int)) (n : Nat) (d e : Int) :
    bump (bump cs n d) n e = bump cs n (d + e) := by
  simp only [bump, List.map_map]
  apply List.map_congr_left
  intro p _
  by_cases hp : p.1 = n <;> simp [hp] <;> omega

theorem bump_zero (cs : List (Nat × Int)) (n : Nat) : bump cs n 0 = cs := by
  have : cs.map (fun p => if p.1 = n then (p.1, p.2 + 0) else p)
      = cs.map id := by
    apply List.map_congr_left
    intro p _
    by_cases hp : p.1 = n
    · rw [if_pos hp]
      simp
    · rw [if_neg hp]
      rfl
  rw [bump, this, List.map_id]

theorem bump_comm (cs : List (Nat × Int)) (a b : Nat) (d e : Int) :
    bump (bump cs a d) b e = bump (bump cs b e) a d := by
  simp only [bump, List.map_map]
  apply List.map_congr_left
  intro p _
  obtain ⟨pn, pc⟩ := p
  by_cases hpa : pn = a
  · subst hpa
    by_cases hpb : pn = b
    · subst hpb
      simp [Prod.ext_iff]
      omega
    · simp [hpb]
  · by_cases hpb : pn = b
    · subst hpb
      simp [hpa]
    · simp [hpa, hpb]

theorem bump_bumpAll_comm {α : Type} (l : List (Nat × α)) :
    ∀ (cs : List (Nat × Int)) (n : Nat) (d : Int),
      bump (bumpAll cs l) n d = bumpAll (bump cs n d) l := by
  induction l with
  | nil => intro cs n d; rfl
  | cons s rest ih =>
    intro cs n d
    show bump (bumpAll (bump cs s.1 1) rest) n d = _
    rw [ih, bump_comm]
    rfl

theorem decAll_perm {α : Type} {l₁ l₂ : List (Nat × α)} (h : l₁.Perm l₂) :
    ∀ cs, decAll cs l₁ = decAll cs l₂ := by
  induction h with
  | nil => intro cs; rfl
  | cons x _ ih =>
    intro cs
    show decAll (bump cs x.1 (-1)) _ = decAll (bump cs x.1 (-1)) _
    exact ih _
  | swap x y l =>
    intro cs
    show decAll (bump (bump cs y.1 (-1)) x.1 (-1)) l
      = decAll (bump (bump cs x.1 (-1)) y.1 (-1)) l
    rw [bump_comm]
  | trans _ _ ih₁ ih₂ =>
    intro cs
    rw [ih₁, ih₂]

theorem decAll_bumpAll_cancel {α : Type} (l : List (Nat × α)) :
    ∀ cs, decAll (bumpAll cs l) l = cs := by
  induction l with
  | nil => intro cs; rfl
  | cons s rest ih =>
    intro cs
    show decAll (bump (bumpAll (bump cs s.1 1) rest) s.1 (-1)) rest = cs
    rw [bump_bumpAll_comm, bump_bump]
    have h1 : (1 : Int) + (-1) = 0 := by omega
    rw [h1, bump_zero]
    exact ih cs

/-- Draining permutes the occupied slots (no comparator laws needed). -/
theorem drain_go_perm' {β : Type} [Inhabited β] (cmp : β → β → Int) :
    ∀ gas (l : List β), l.length ≤ gas → (drain_go cmp gas l).Perm l := by
  intro gas
  induction gas with
  | zero =>
    intro l hlen
    have : l = [] := List.length_eq_zero.mp (by omega)
    subst this
    exact List.Perm.refl _
  | succ g ih =>
    intro l hlen
    rw [drain_go]
    cases hrem : removeList cmp l with
    | none =>
      rw [removeList_eq_none_iff] at hrem
      subst hrem
      exact List.Perm.refl _
    | some pr =>
      obtain ⟨a, rest⟩ := pr
      obtain ⟨_, hperm, hlen'⟩ := removeList_spec cmp l a rest hrem
      exact ((ih rest (by omega)).cons a).trans hperm

/-- Counts and text produced by the removal loop of `pq_print`, expressed
through the drained slot sequence. -/
theorem print_go_spec {β : Type} [Inhabited β] (cmp : (Nat × β) → (Nat × β) → Int)
    (f : β → String) :
    ∀ gas (cs : List (Nat × Int)) (slots : List (Nat × β)),
      slots.length ≤ gas →
      print_go cmp gas cs slots f
        = (decAll cs (drain_go cmp gas slots),
           joinSp ((drain_go cmp gas slots).map (fun s => f s.2))) := by
  intro gas
  induction gas with
  | zero =>
    intro cs slots hlen
    have : slots = [] := List.length_eq_zero.mp (by omega)
    subst this
    rfl
  | succ g ih =>
    intro cs slots hlen
    rw [print_go, drain_go]
    cases hrem : removeList cmp slots with
    | none => rfl
    | some pr =>
      obtain ⟨s, rest⟩ := pr
      obtain ⟨_, _, hlen'⟩ := removeList_spec cmp slots s rest hrem
      have hrl : rest.length ≤ g := by omega
      dsimp only
      rw [ih (bump cs s.1 (-1)) rest hrl]
      have hdlen : (drain_go cmp g rest).length = rest.length := by
        have hperm := drain_go_perm' cmp g rest hrl
        exact hperm.length_eq
      refine Prod.ext rfl ?_
      show (if rest.length = 0 then f s.2 else f s.2 ++ " ")
          ++ joinSp ((drain_go cmp g rest).map (fun s => f s.2))
        = joinSp ((s :: drain_go cmp g rest).map (fun s => f s.2))
      rw [List.map_cons]
      by_cases h0 : rest.length = 0
      · rw [if_pos h0]
        have : drain_go cmp g rest = [] := by
          rw [← List.length_eq_zero, hdlen]
          exact h0
        rw [this]
        show f s.2 ++ "" = joinSp [f s.2]
        rw [show joinSp [f s.2] = f s.2 from rfl]
        exact String.append_empty (f s.2)
      · rw [if_neg h0]
        cases hdg : drain_go cmp g rest with
        | nil =>
          rw [hdg] at hdlen
          simp at hdlen
          omega
        | cons y ys =>
          rw [List.map_cons]
          rfl

/-- `String.intercalate.go` unrolled into the space-separated join. -/
theorem intercalate_go_eq :
    ∀ (as : List String) (acc : String),
      String.intercalate.go acc " " as = joinSp (acc :: as) := by
  intro as
  induction as with
  | nil => intro acc; rfl
  | cons b bs ih =>
    intro acc
    show String.intercalate.go (acc ++ " " ++ b) " " bs = _
    rw [ih (acc ++ " " ++ b)]
    cases bs with
    | nil => rfl
    | cons c cs =>
      show (acc ++ " " ++ b) ++ " " ++ joinSp (c :: cs)
        = acc ++ " " ++ ((b ++ " ") ++ joinSp (c :: cs))
      simp [String.append_assoc]

/-- `joinSp` agrees with `String.intercalate " "`. -/
theorem joinSp_eq_intercalate :
    ∀ l : List String, joinSp l = String.intercalate " " l := by
  intro l
  cases l with
  | nil => rfl
  | cons a as =>
    show joinSp (a :: as) = String.intercalate.go a " " as
    rw [intercalate_go_eq as a]

/-! ## Computation lemmas for the world-level API calls -/
omit [Inhabited α] in
theorem copyW_eq (w : World α) (qid : Nat) (q : WQueue α)
    (hfind : findQ w.queues qid = some q) :
    copyW w qid = some ⟨w.nextNode, w.nextQueue + 1,
      bumpAll w.counts q.slots,
      w.queues ++ [(w.nextQueue, ⟨q.size, q.compare, q.slots⟩)]⟩ := by
  simp only [copyW, hfind]

omit [Inhabited α] in
theorem destroyW_eq (w : World α) (qid : Nat) (q : WQueue α)
    (hfind : findQ w.queues qid = some q) :
    destroyW w qid = some (⟨w.nextNode, w.nextQueue,
      (releaseSlots w.counts q.slots).1,
      w.queues.filter (fun p => decide (p.1 ≠ qid))⟩,
      (releaseSlots w.counts q.slots).2) := by
  simp only [destroyW, hfind]

theorem insertW_eq (w : World α) (qid : Nat) (q : WQueue α) (v : α)
    (hfind : findQ w.queues qid = some q)
    (hcap : ¬ (q.slots.length + 1 > q.size)) :
    insertW w qid v = some ⟨w.nextNode + 1, w.nextQueue,
      (w.nextNode, 1) :: w.counts,
      updQ w.queues qid (fun qq => { qq with
        slots := sift_up (cmpN qq) (qq.slots ++ [(w.nextNode, v)])
          (w.nextNode, v) qq.slots.length })⟩ := by
  simp only [insertW, hfind, if_neg hcap]

theorem removeW_eq (w : World α) (qid : Nat) (q : WQueue α)
    (s : Nat × α) (rest : List (Nat × α))
    (hfind : findQ w.queues qid = some q)
    (hrem : removeList (cmpN q) q.slots = some (s, rest)) :
    removeW w qid = some ⟨w.nextNode, w.nextQueue,
      bump w.counts s.1 (-1),
      updQ w.queues qid (fun qq => { qq with slots := rest })⟩ := by
  simp only [removeW, hfind, hrem]

theorem bumpAll_mem_of_mem {α : Type} (slots : List (Nat × α)) :
    ∀ (cs : List (Nat × Int)) (m : Nat) (c : Int), (m, c) ∈ cs →
      (m, c + ((slots.map (·.1)).count m : Int)) ∈ bumpAll cs slots := by
  induction slots with
  | nil =>
    intro cs m c h
    simpa using h
  | cons s rest ih =>
    intro cs m c h
    have h1 := mem_bump_of_mem cs s.1 1 m c h
    by_cases hm : m = s.1
    · rw [if_pos hm] at h1
      have h2 := ih (bump cs s.1 1) m (c + 1) h1
      have he : c + 1 + ((rest.map (·.1)).count m : Int)
          = c + (((s :: rest).map (·.1)).count m : Int) := by
        rw [count_map_fst_cons, if_pos hm]
        push_cast
        omega
      rw [he] at h2
      exact h2
    · rw [if_neg hm] at h1
      have h2 := ih (bump cs s.1 1) m c h1
      have he : c + ((rest.map (·.1)).count m : Int)
          = c + (((s :: rest).map (·.1)).count m : Int) := by
        rw [count_map_fst_cons, if_neg hm]
        push_cast
        omega
      rw [he] at h2
      exact h2

/-- Counts and emitted text of `pq_print` on a non-null queue: the reference
counts are restored exactly (copy increments each slot's node once; the
drain's removals decrement each exactly once), and the text is the
space-separated, no-trailing-separator rendering of the drained values. -/
theorem printW_spec (cs : List (Nat × Int)) (q : WQueue α)
    (f : α → String) :
    printW cs q f
      = (cs, String.intercalate " "
          (((drain (cmpN q) q.slots).map (·.2)).map f)) := by
  rw [printW, print_go_spec (cmpN q) f q.slots.length (bumpAll cs q.slots)
    q.slots (Nat.le_refl _)]
  have hperm : (drain_go (cmpN q) q.slots.length q.slots).Perm q.slots :=
    drain_go_perm' (cmpN q) q.slots.length q.slots (Nat.le_refl _)
  refine Prod.ext ?_ ?_
  · show decAll (bumpAll cs q.slots) (drain_go (cmpN q) q.slots.length
      q.slots) = cs
    rw [decAll_perm hperm, decAll_bumpAll_cancel]
  · show joinSp ((drain_go (cmpN q) q.slots.length q.slots).map
      (fun s => f s.2)) = _
    rw [joinSp_eq_intercalate, List.map_map]
    rfl

/-! ## Drain loop against the heap-order drain -/
/-- `n` successive `pq_remove` calls on a queue of length `n` succeed, return
exactly the `drain` of the occupied slots, and leave the queue empty. -/
theorem removeN_drain :
    ∀ (n : Nat) (q : PQ α), q.arr.length = n →
      removeN n q
        = some (drain_go q.compare n q.arr, ⟨q.size, q.compare, []⟩) := by
  intro n
  induction n with
  | zero =>
    intro q h
    obtain ⟨s, c, arr⟩ := q
    have harr : arr = [] := List.length_eq_zero.mp h
    subst harr
    rfl
  | succ n ih =>
    intro q h
    obtain ⟨s, c, arr⟩ := q
    have h' : arr.length = n + 1 := h
    cases hrem : removeList c arr with
    | none =>
      rw [removeList_eq_none_iff] at hrem
      subst hrem
      simp at h'
    | some p =>
      obtain ⟨a, rest⟩ := p
      obtain ⟨-, -, hlen⟩ := removeList_spec c arr a rest hrem
      have hr : rest.length = n := by omega
      have hrec := ih ⟨s, c, rest⟩ hr
      simp only [removeN, pq_remove, hrem, hrec, drain_go]

/-! ## The claims -/
/-- C1: for every queue created with capacity `C`, every comparator obeying
the contract, and every sequence of `n ≤ C` values, inserting all `n` values
via `pq_insert` and then calling `pq_remove` `n` times returns exactly those
`n` values (a permutation of them) in non-decreasing priority order per the
comparator: each returned value `a` immediately followed by `b` has
`compare a b ≤ 0`. -/
theorem spec_c1 {cmp : α → α → Int} (hv : ValidCmp cmp) (C : Nat)
    (vs : List α) (q0 q1 : PQ α) (hn : vs.length ≤ C)
    (hcreate : pq_create C (some cmp) = .ok q0)
    (hins : insertAll q0 vs = .ok q1) :
    ∃ out qf, removeN vs.length q1 = some (out, qf) ∧
      out.Perm vs ∧ List.Chain' (fun a b => cmp a b ≤ 0) out := by
  have hcreate' : COut.ok (⟨C, cmp, []⟩ : PQ α) = .ok q0 := hcreate
  cases hcreate'
  obtain ⟨q', he, hs, hc, hl, hp⟩ :=
    insertAll_ok_len vs (⟨C, cmp, []⟩ : PQ α) (by simpa using hn)
  have hq1 : COut.ok q1 = .ok q' := hins.symm.trans he
  cases hq1
  have hcomp : q1.compare = cmp := hc
  have hlen : q1.arr.length = vs.length := by simpa using hl
  have hheap : IsHeap cmp q1.arr :=
    insertAll_heap hv vs ⟨C, cmp, []⟩ q1 rfl (isHeap_nil cmp) hins
  have hperm : q1.arr.Perm vs := by simpa using hp
  have hrem := removeN_drain vs.length q1 hlen
  rw [hcomp] at hrem
  rw [show drain_go cmp vs.length q1.arr = drain cmp q1.arr from by
    rw [drain, hlen]] at hrem
  obtain ⟨hperm', hchain⟩ := drain_spec hv q1.arr hheap
  exact ⟨drain cmp q1.arr, ⟨q1.size, cmp, []⟩, hrem,
    hperm'.trans hperm, hchain⟩

/-- Witness for the heapsort-order claim: the queue reached by inserting
`[2, 1, 3]` into an empty capacity-3 queue drains to a sorted permutation. -/
theorem spec_c1_witness :
    ∃ out qf,
      removeN 3 (⟨3, finCmp, [1, 2, 3]⟩ : PQ (Fin 4)) = some (out, qf) ∧
      out.Perm [2, 1, 3] ∧ List.Chain' (fun a b => finCmp a b ≤ 0) out :=
  spec_c1 (by decide) 3 [2, 1, 3] ⟨3, finCmp, []⟩ ⟨3, finCmp, [1, 2, 3]⟩
    (by decide) rfl rfl

/-- C2 (amended): in `pq_remove`'s sift-down, at a step where both children
of the current index are occupied, both compare strictly smaller than the
current node, and the two children compare as equal priority to each other,
the swap is performed with the **right** child, not the left: `is_left` is
`RIGHT(idx) >= pq->len || compare(left, right) < 0`, which is false at a tie,
and the loop continues from the right child's position. -/
theorem spec_c2 (cmp : α → α → Int) (l : List α) (k : Nat)
    (h2 : 2 * k + 2 < l.length)
    (hl : 0 < cmp (nth l k) (nth l (2 * k + 1)))
    (hr : 0 < cmp (nth l k) (nth l (2 * k + 2)))
    (htie : cmp (nth l (2 * k + 1)) (nth l (2 * k + 2)) = 0) :
    sift_down cmp l k
      = sift_down_go cmp (l.length - 1) (swapL l k (2 * k + 2))
          (2 * k + 2) := by
  obtain ⟨m, hm⟩ : ∃ m, l.length = m + 1 := ⟨l.length - 1, by omega⟩
  rw [sift_down]
  conv_lhs => rw [hm]
  have hneg : ¬ (l.length ≤ 2 * k + 2 ∨
      cmp (nth l (2 * k + 1)) (nth l (2 * k + 2)) < 0) := by
    push_neg
    exact ⟨by omega, htie.ge⟩
  simp only [sift_down_go]
  rw [if_pos (Or.inr ⟨h2, hr⟩), if_neg hneg]
  have hm' : m = l.length - 1 := by omega
  rw [hm']

/-- Witness for the amended tie-break claim: on `[5, 1, 1]` the root is
swapped with the right child (index 2), not the left. -/
theorem spec_c2_witness :
    sift_down intCmp [5, 1, 1] 0
      = sift_down_go intCmp 2 (swapL [5, 1, 1] 0 2) 2 :=
  spec_c2 intCmp [5, 1, 1] 0 (by decide) (by decide) (by decide) (by decide)

/-- Counterexample to the claimed left tie-break: removing the root of the
heap `[0, 1, 1, 5]` moves `5` to the root and sifts it down; both children
tie at priority `1`, and the code swaps with the right child, producing
`[1, 1, 5]` rather than the left-swap result `[1, 5, 1]`. -/
theorem spec_c2_cex :
    removeList intCmp [0, 1, 1, 5] = some (0, [1, 1, 5]) ∧
    sift_down intCmp [5, 1, 1] 0 = [1, 1, 5] ∧
    sift_down intCmp [5, 1, 1] 0 ≠ [1, 5, 1] := by
  refine ⟨by decide, by decide, by decide⟩

/-- C3: after any successful sequence of `pq_insert` and `pq_remove` calls on
a queue produced by `pq_create`, for every occupied index `i`,
`compare(node[i], node[2i+1]) ≤ 0` and `compare(node[i], node[2i+2]) ≤ 0`
whenever those child indices are occupied. -/
theorem spec_c3 {cmp : α → α → Int} (hv : ValidCmp cmp) (C : Nat)
    (ops : List (Option α)) (q0 q1 : PQ α)
    (hcreate : pq_create C (some cmp) = .ok q0)
    (hops : runOps q0 ops = some q1) :
    IsHeap cmp q1.arr := by
  have hcreate' : COut.ok (⟨C, cmp, []⟩ : PQ α) = .ok q0 := hcreate
  cases hcreate'
  exact (runOps_heap hv ops ⟨C, cmp, []⟩ q1 rfl (isHeap_nil cmp) hops).2

/-- Witness for the heap-invariant claim: the queue reached by the call
sequence insert 2, insert 1, remove, insert 3 satisfies the invariant. -/
theorem spec_c3_witness : IsHeap finCmp exQ3.arr :=
  spec_c3 (by decide) 3 [some 2, some 1, none, some 3] ⟨3, finCmp, []⟩
    exQ3 rfl (Option.some_get _).symm

/-- C4: in every state reachable by any interleaving of create, insert, copy,
remove, and destroy over any collection of queues, each allocated node's
reference count equals the number of live queues that include that exact node
among their occupied slots. -/
theorem spec_c4 (ops : List (WOp α)) (w : World α)
    (hrun : runW (w0 α) ops = some w) :
    CountsAreHolders w := by
  have hw : WF w := wf_runW ops (w0 α) w wf_w0 hrun
  intro p hp
  have hc : p.2 = (occW w p.1 : Int) := hw.countOcc p hp
  rw [hc]
  exact_mod_cast occW_eq_holders w hw p.1

/-- Witness for the reference-count claim: after create, two inserts, a copy
and a remove, every count entry equals the number of queues holding the
node. -/
theorem spec_c4_witness : CountsAreHolders exW4 :=
  spec_c4 exOps4 exW4 (Option.some_get _).symm

/-- C5: shared-release correctness in the world semantics.  In any reachable
world, given a queue `qid` holding node `n` and no other live queue holding
it, after `pq_copy` produces the copy, destroying the original queue with a
release callback does not invoke the callback on `n` (the copy still holds
it), while the subsequent destruction of the copy invokes it on `n` exactly
once. -/
theorem spec_c5 (ops : List (WOp α)) (w : World α) (qid : Nat)
    (q : WQueue α) (n : Nat)
    (hrun : runW (w0 α) ops = some w)
    (hq : findQ w.queues qid = some q)
    (hn : n ∈ ids q)
    (hone : holders w n = 1) :
    ∃ w₁ w₂ rel₁ w₃ rel₂,
      copyW w qid = some w₁ ∧
      destroyW w₁ qid = some (w₂, rel₁) ∧
      destroyW w₂ w.nextQueue = some (w₃, rel₂) ∧
      (rel₁.map (·.1)).count n = 0 ∧
      (rel₂.map (·.1)).count n = 1 := by
  have hw : WF w := wf_runW ops (w0 α) w wf_w0 hrun
  obtain ⟨A, B, hAB, hA⟩ := findQ_decomp w.queues qid q hq
  have hmemq : (qid, q) ∈ w.queues := by
    rw [hAB]
    exact List.mem_append_right A (List.mem_cons_self _ _)
  have hocc1 : occQ q n = 1 := by
    have hle : occQ q n ≤ occW w n := by
      have hmem : occQ q n ∈ w.queues.map (fun p => occQ p.2 n) :=
        List.mem_map_of_mem _ hmemq
      exact List.single_le_sum (fun x _ => Nat.zero_le x) _ hmem
    have hpos : 0 < occQ q n :=
      Nat.pos_of_ne_zero (fun hz => List.count_eq_zero.mp hz hn)
    have hocw : occW w n = 1 := by rw [occW_eq_holders w hw n, hone]
    omega
  have hcount : (q.slots.map (·.1)).count n = 1 := hocc1
  obtain ⟨s, hs, hsn⟩ := List.mem_map.mp hn
  have hkey : n ∈ w.counts.map (·.1) := hsn ▸ hw.slotKeys (qid, q) hmemq s hs
  obtain ⟨c, hcmem⟩ := mem_keys_entry w.counts n hkey
  have hc1 : c = 1 := by
    have hc : c = (occW w n : Int) := hw.countOcc (n, c) hcmem
    rw [occW_eq_holders w hw n, hone] at hc
    exact_mod_cast hc
  subst hc1
  have hnd1 : ((bumpAll w.counts q.slots).map (·.1)).Nodup := by
    rw [bumpAll_map_fst]
    exact hw.keysNodup
  have hmem2 : (n, 2) ∈ bumpAll w.counts q.slots := by
    have hb := bumpAll_mem_of_mem q.slots w.counts n 1 hcmem
    rw [hcount] at hb
    exact hb
  have hqlt : qid < w.nextQueue := hw.qidFresh (qid, q) hmemq
  have hfind₁ : findQ (w.queues ++ [(w.nextQueue, q)]) qid = some q :=
    findQ_append_left _ _ qid q hq
  have hfind₂ : findQ ((w.queues ++ [(w.nextQueue, q)]).filter
      (fun p => decide (p.1 ≠ qid))) w.nextQueue = some q := by
    rw [findQ_filter_ne _ qid w.nextQueue (Nat.ne_of_lt hqlt).symm]
    exact findQ_append_new w.queues w.nextQueue q
      (fun x hx => Nat.ne_of_lt (hw.qidFresh x hx))
  have hnd2 : (((releaseSlots (bumpAll w.counts q.slots) q.slots).1.map
      (·.1)).Nodup) :=
    hnd1.sublist (releaseSlots_keys_sublist q.slots _)
  have hsurv := releaseSlots_survive q.slots (bumpAll w.counts q.slots) n 2
    hnd1 hmem2 (by rw [hcount]; norm_num)
  rw [hcount] at hsurv
  norm_num at hsurv
  have h4 := releaseSlots_rel_count q.slots (bumpAll w.counts q.slots) n 2
    hnd1 hmem2 (by norm_num) (by rw [hcount]; norm_num)
  rw [hcount] at h4
  norm_num at h4
  have h5 := releaseSlots_rel_count q.slots
    (releaseSlots (bumpAll w.counts q.slots) q.slots).1 n 1
    hnd2 hsurv (by norm_num) (by rw [hcount]; norm_num)
  rw [hcount] at h5
  norm_num at h5
  refine ⟨⟨w.nextNode, w.nextQueue + 1, bumpAll w.counts q.slots,
      w.queues ++ [(w.nextQueue, q)]⟩,
    _, _, _, _, copyW_eq w qid q hq, destroyW_eq _ qid q hfind₁,
    destroyW_eq _ w.nextQueue q hfind₂, h4, h5⟩

/-- Witness for the shared-release claim: a world with one queue holding one
node; copy then destroy-original releases nothing, destroy-copy releases the
node exactly once. -/
theorem spec_c5_witness :
    ∃ w₁ w₂ rel₁ w₃ rel₂,
      copyW exW5 0 = some w₁ ∧
      destroyW w₁ 0 = some (w₂, rel₁) ∧
      destroyW w₂ exW5.nextQueue = some (w₃, rel₂) ∧
      (rel₁.map (·.1)).count 0 = 0 ∧
      (rel₂.map (·.1)).count 0 = 1 :=
  spec_c5 exOps5 exW5 0 ⟨2, intCmp, [(0, 5)]⟩ 0 (Option.some_get _).symm rfl
    (by decide) rfl

/-- C6: `pq_print` leaves the queue and the reference counts unchanged (the
counts after the internal copy, drain and destroy are exactly the initial
ones), and the text it emits is the space-separated rendering, with no
trailing separator, of the sequence obtained by draining a copy of the queue
via repeated `pq_remove`. -/
theorem spec_c6 (cs : List (Nat × Int)) (q : WQueue α) (f : α → String) :
    (printW cs q f).1 = cs ∧
    (printW cs q f).2
      = String.intercalate " "
          (((drain (cmpN q) q.slots).map (·.2)).map f) := by
  rw [printW_spec cs q f]
  exact ⟨rfl, rfl⟩

/-- C7: `pq_copy` produces a queue with the same capacity, comparator and
occupied slots as the source, and the two queues are structurally
independent: inserting into the copy leaves the original's registry entry
(hence its length and root) unchanged, and removing from the original leaves
the copy's entry (hence its array) unchanged. -/
theorem spec_c7 (ops : List (WOp α)) (w : World α) (qid : Nat)
    (q : WQueue α) (v : α) (w₁ w₂ w₃ : World α)
    (hrun : runW (w0 α) ops = some w)
    (hq : findQ w.queues qid = some q)
    (hcopy : copyW w qid = some w₁)
    (hins : insertW w₁ w.nextQueue v = some w₂)
    (hrem : removeW w₁ qid = some w₃) :
    findQ w₁.queues w.nextQueue = some q ∧
    findQ w₂.queues qid = some q ∧
    findQ w₃.queues w.nextQueue = some q := by
  have hw : WF w := wf_runW ops (w0 α) w wf_w0 hrun
  obtain ⟨A, B, hAB, hA⟩ := findQ_decomp w.queues qid q hq
  have hmemq : (qid, q) ∈ w.queues := by
    rw [hAB]
    exact List.mem_append_right A (List.mem_cons_self _ _)
  have hqlt : qid < w.nextQueue := hw.qidFresh (qid, q) hmemq
  have hne : qid ≠ w.nextQueue := Nat.ne_of_lt hqlt
  have hw₁ : w₁ = ⟨w.nextNode, w.nextQueue + 1, bumpAll w.counts q.slots,
      w.queues ++ [(w.nextQueue, q)]⟩ :=
    (Option.some.inj (hcopy.symm.trans (copyW_eq w qid q hq)))
  have hfq1 : findQ w₁.queues w.nextQueue = some q := by
    rw [hw₁]
    exact findQ_append_new w.queues w.nextQueue q
      (fun x hx => Nat.ne_of_lt (hw.qidFresh x hx))
  have hfq1' : findQ w₁.queues qid = some q := by
    rw [hw₁]
    exact findQ_append_left _ _ qid q hq
  refine ⟨hfq1, ?_, ?_⟩
  · by_cases hcap : q.slots.length + 1 > q.size
    · simp only [insertW, hfq1, if_pos hcap] at hins
      cases hins
    · have h1 := (insertW_eq w₁ w.nextQueue q v hfq1 hcap).symm.trans hins
      rw [← Option.some.inj h1]
      exact (findQ_updQ_ne w₁.queues w.nextQueue qid (fun qq => { qq with slots := sift_up (cmpN qq) (qq.slots ++ [(w₁.nextNode, v)]) (w₁.nextNode, v) qq.slots.length }) hne).trans hfq1'
  · cases hrl : removeList (cmpN q) q.slots with
    | none =>
      simp only [removeW, hfq1', hrl] at hrem
      cases hrem
    | some p =>
      obtain ⟨s, rest⟩ := p
      have h1 := (removeW_eq w₁ qid q s rest hfq1' hrl).symm.trans hrem
      rw [← Option.some.inj h1]
      exact (findQ_updQ_ne w₁.queues qid w.nextQueue
        (fun qq => { qq with slots := rest }) (Ne.symm hne)).trans hfq1

/-- Witness for the copy-independence claim: queue 0 holds one node; after
the copy (queue 1), inserting into the copy and removing from the original
each leave the other queue's registry entry unchanged. -/
theorem spec_c7_witness :
    findQ exW7a.queues exW7.nextQueue = some ⟨2, intCmp, [(0, 5)]⟩ ∧
    findQ exW7b.queues 0 = some ⟨2, intCmp, [(0, 5)]⟩ ∧
    findQ exW7c.queues exW7.nextQueue = some ⟨2, intCmp, [(0, 5)]⟩ :=
  spec_c7 [.create 2 intCmp, .insert 0 5] exW7 0 ⟨2, intCmp, [(0, 5)]⟩ 9
    exW7a exW7b exW7c (Option.some_get _).symm rfl (Option.some_get _).symm
    (Option.some_get _).symm (Option.some_get _).symm

/-- C8 (amended): a null comparator passed to create, insert on a full queue,
peek or remove on an empty queue, and insert, peek, remove, the length and
capacity queries, and copy applied to a null queue are all fatal — a
diagnostic followed by `abort()`, never returning a value.  The two
exceptions are `pq_is_empty` and `pq_destroy` on a null queue: they perform
no null check and dereference the null pointer, which is undefined
behaviour with no diagnostic, not the fatal path. -/
theorem spec_c8 (C : Nat) (qf qe : PQ α) (v : α)
    (hf : qf.size ≤ qf.len) (he : qe.len = 0) :
    (pq_create C (none : Option (α → α → Int))).isFatal = true ∧
    (pq_insert (some qf) v).isFatal = true ∧
    (pq_peek (some qe)).isFatal = true ∧
    (pq_remove (some qe)).isFatal = true ∧
    (pq_insert (none : Option (PQ α)) v).isFatal = true ∧
    (pq_peek (none : Option (PQ α))).isFatal = true ∧
    (pq_remove (none : Option (PQ α))).isFatal = true ∧
    (pq_len (none : Option (PQ α))).isFatal = true ∧
    (pq_size (none : Option (PQ α))).isFatal = true ∧
    (pq_copy (none : Option (PQ α))).isFatal = true ∧
    pq_is_empty (none : Option (PQ α)) = .undef ∧
    (pq_is_empty (none : Option (PQ α))).isFatal = false ∧
    pq_destroy (none : Option (PQ α)) = .undef ∧
    (pq_destroy (none : Option (PQ α))).isFatal = false := by
  refine ⟨rfl, ?_, ?_, ?_, rfl, rfl, rfl, rfl, rfl, rfl, rfl, rfl, rfl, rfl⟩
  · simp only [pq_insert]
    rw [if_pos (show qf.len + 1 > qf.size by omega)]
    rfl
  · simp only [pq_peek]
    rw [if_pos he]
    rfl
  · simp only [pq_remove,
      (removeList_eq_none_iff qe.compare qe.arr).mpr
        (List.length_eq_zero.mp he)]
    rfl

/-- Witness for the amended failure-semantics claim, at a full queue of
capacity 0 and an empty queue of capacity 1 over `Int`. -/
theorem spec_c8_witness :
    (pq_create 5 (none : Option (Int → Int → Int))).isFatal = true ∧
    (pq_insert (some (⟨0, intCmp, []⟩ : PQ Int)) 0).isFatal = true ∧
    (pq_peek (some (⟨1, intCmp, []⟩ : PQ Int))).isFatal = true ∧
    (pq_remove (some (⟨1, intCmp, []⟩ : PQ Int))).isFatal = true ∧
    (pq_insert (none : Option (PQ Int)) 0).isFatal = true ∧
    (pq_peek (none : Option (PQ Int))).isFatal = true ∧
    (pq_remove (none : Option (PQ Int))).isFatal = true ∧
    (pq_len (none : Option (PQ Int))).isFatal = true ∧
    (pq_size (none : Option (PQ Int))).isFatal = true ∧
    (pq_copy (none : Option (PQ Int))).isFatal = true ∧
    pq_is_empty (none : Option (PQ Int)) = .undef ∧
    (pq_is_empty (none : Option (PQ Int))).isFatal = false ∧
    pq_destroy (none : Option (PQ Int)) = .undef ∧
    (pq_destroy (none : Option (PQ Int))).isFatal = false :=
  spec_c8 5 ⟨0, intCmp, []⟩ ⟨1, intCmp, []⟩ 0 (by decide) rfl

/-- Counterexample to the claim that every queue operation on a null queue is
fatal with a diagnostic: `pq_is_empty` (`return !pq->len;`) and `pq_destroy`
have no null check at all, so on a null queue they dereference the null
pointer — undefined behaviour, not a diagnostic abort. -/
theorem spec_c8_cex :
    pq_is_empty (none : Option (PQ Int)) = .undef ∧
    (pq_is_empty (none : Option (PQ Int))).isFatal ≠ true ∧
    pq_destroy (none : Option (PQ Int)) = .undef ∧
    (pq_destroy (none : Option (PQ Int))).isFatal ≠ true := by
  refine ⟨rfl, by decide, rfl, by decide⟩

/-- C9: for every queue created with capacity `C` and every choice of
values, the first `C` inserts succeed and the length reaches `C`; any
further insert performed while the length equals `C` is fatal, with the same
fatal outcome (the same diagnostic) regardless of which value is being
inserted. -/
theorem spec_c9 {cmp : α → α → Int} (C : Nat) (vs : List α) (q0 : PQ α)
    (hcreate : pq_create C (some cmp) = .ok q0)
    (hlen : vs.length = C) :
    ∃ q1, insertAll q0 vs = .ok q1 ∧ q1.len = C ∧
      ∀ v : α, pq_insert (some q1) v = .fatal (fullMsg q1) := by
  have hcreate' : COut.ok (⟨C, cmp, []⟩ : PQ α) = .ok q0 := hcreate
  cases hcreate'
  obtain ⟨q1, he, hs, hc, hl, hp⟩ :=
    insertAll_ok_len vs (⟨C, cmp, []⟩ : PQ α) (by simp [hlen])
  have hsize : q1.size = C := hs
  have hq1len : q1.len = C := by
    show q1.arr.length = C
    simpa [hlen] using hl
  refine ⟨q1, he, hq1len, fun v => ?_⟩
  simp only [pq_insert]
  rw [if_pos (show q1.len + 1 > q1.size by rw [hq1len, hsize]; omega)]

/-- Witness for the capacity-bound claim: a capacity-2 queue filled with two
values rejects every further insert with the same diagnostic. -/
theorem spec_c9_witness :
    ∃ q1, insertAll (⟨2, intCmp, []⟩ : PQ Int) [5, 3] = .ok q1 ∧
      q1.len = 2 ∧
      ∀ v : Int, pq_insert (some q1) v = .fatal (fullMsg q1) :=
  spec_c9 2 [5, 3] ⟨2, intCmp, []⟩ rfl rfl

/-- C10: `ht_create` stores `0` as the table's capacity regardless of the
size argument it is given, so for every table it returns and every key/value
pair, `ht_insert` always fails the capacity check (`length + 1 >= capacity`)
and aborts; and no `ht_insert` call on any table ever mutates the table's
contents or length — it either aborts or returns with the table unchanged. -/
theorem spec_c10 {κ ν : Type} (size : Nat) (eq : κ → κ → Int)
    (hf : κ → Nat) (k : κ) (v : ν) (ht : HT κ ν) :
    (ht_create size eq hf : HT κ ν).size = 0 ∧
    (ht_insert (ht_create size eq hf : HT κ ν) k v).isFatal = true ∧
    (ht_insert ht k v = .fatal (htFullMsg ht) ∨ ht_insert ht k v = .ok ht) := by
  refine ⟨rfl, rfl, ?_⟩
  by_cases hcap : ht.len + 1 ≥ ht.size
  · left
    simp only [ht_insert, if_pos hcap]
  · right
    simp only [ht_insert, if_neg hcap]

end Guilib
